import Mathlib

/-!
# parse_calendar_events.go

A shallow embedding of `parse_calendar_events.go`: the date parser `parseDate`,
the range matcher `isInDateRange`, and the extraction and event-building loop of
`main`, together with the parts of the Go standard library they call
(`time.Parse` for the four layouts used, `strings.*`, and the two regular
expressions).

Conventions.
* A Go string is modelled by its list of code points (`Str`); the input is UTF-8
  text.  `len` is the byte length of the UTF-8 encoding, as in Go.
* A `time.Time` in UTC is modelled by the number of nanoseconds elapsed since
  0000-01-01T00:00:00Z (`Time`); `Before` and `After` are the strict orders.
* A function returning `(T, error)` returns `Option T`.
* `time.Parse` inspects bytes.  Every byte it accepts is ASCII and no byte of a
  multi-byte code point is, so reading code points gives the same result.
* `time.Parse` is the one of Go 1.17 and later: after the seconds it reads a
  fraction introduced by a period or a comma even when the layout has none.
-/

namespace CalendarEvents

/-! ## Strings -/

/-- A Go string, as the list of its code points. -/
abbrev Str := List Char

/-- Number of bytes of the UTF-8 encoding of one code point. -/
def runeLen (c : Char) : Nat :=
  if c.toNat < 128 then 1
  else if c.toNat < 2048 then 2
  else if c.toNat < 65536 then 3
  else 4

/-- Go `len(s)` on a string: the number of bytes. -/
def len (s : Str) : Nat := (s.map runeLen).sum

/-! ## Package time: the instant of a civil date -/

/-- A UTC instant: nanoseconds since 0000-01-01T00:00:00Z. -/
abbrev Time := Nat

/-- Go `isLeap`. -/
def isLeap (year : Nat) : Bool :=
  year % 4 == 0 && (year % 100 != 0 || year % 400 == 0)

/-- Go `daysBefore[m]`: days in a non-leap year before the end of month `m`
(`daysBefore[0] = 0`, `daysBefore[12] = 365`). -/
def daysBefore (m : Nat) : Nat :=
  [0, 31, 59, 90, 120, 151, 181, 212, 243, 273, 304, 334, 365].getD m 0

/-- Go `daysIn(m, year)`. -/
def daysIn (m year : Nat) : Nat :=
  if m == 2 && isLeap year then 29 else daysBefore m - daysBefore (m - 1)

/-- Days from 0000-01-01 to January 1st of `year` (Go `daysSinceEpoch`, up to
the choice of epoch): 365 per year plus one per leap year before `year`. -/
def daysSinceEpoch (year : Nat) : Nat :=
  365 * year + (year + 3) / 4 - (year + 99) / 100 + (year + 399) / 400

def secondsPerDay : Nat := 86400

def nanosPerSecond : Nat := 1000000000

/-- Go `time.Date(year, month, day, hour, min, sec, nsec, time.UTC)` for a month
in 1..12 and in-range clock fields (no normalisation is then needed); the day
enters linearly, as in Go. -/
def Date (year month day hour min sec nsec : Nat) : Time :=
  let d := daysSinceEpoch year + daysBefore (month - 1)
    + (if isLeap year && decide (3 ≤ month) then 1 else 0) + (day - 1)
  (d * secondsPerDay + hour * 3600 + min * 60 + sec) * nanosPerSecond + nsec

/-- Go `t.Before(u)`. -/
def Before (t u : Time) : Bool := decide (t < u)

/-- Go `t.After(u)`. -/
def After (t u : Time) : Bool := decide (t > u)

/-- Go `t.AddDate(0, 0, 1)` on a UTC time: `Date(y, m, d+1, ...)` of the civil
fields of `t`, which is `t` plus 24 hours since `Date` is linear in the day. -/
def AddDate001 (t : Time) : Time := t + secondsPerDay * nanosPerSecond

/-! ## Package time: `Parse` -/

/-- Go `isDigit(s, 0)` on the first byte. -/
def isDigitChar (c : Char) : Bool := decide (48 ≤ c.toNat) && decide (c.toNat ≤ 57)

/-- Value of a digit byte, `c - 48`. -/
def digitVal (c : Char) : Nat := c.toNat - 48

/-- Go `getnum(s, fixed)`: one or two leading digits; exactly two when `fixed`. -/
def getnum (s : Str) (fixed : Bool) : Option (Nat × Str) :=
  match s with
  | [] => none
  | a :: t =>
    if isDigitChar a then
      match t with
      | b :: u =>
        if isDigitChar b then some (digitVal a * 10 + digitVal b, u)
        else if fixed then none else some (digitVal a, t)
      | [] => if fixed then none else some (digitVal a, t)
    else none

/-- Go `leadingInt`: consume the leading digits, accumulating their value. -/
def leadingInt : Str → Nat → Nat × Str
  | [], x => (x, [])
  | c :: t, x => if isDigitChar c then leadingInt t (x * 10 + digitVal c) else (x, c :: t)

/-- Go `atoi` on a string that does not start with a sign (every caller below
has checked that the first byte is a digit): all bytes must be digits. -/
def atoi (s : Str) : Option Nat :=
  match leadingInt s 0 with
  | (q, []) => some q
  | (_, _ :: _) => none

/-- Go `commaOrPeriod`. -/
def commaOrPeriod (c : Char) : Bool := c == Char.ofNat 46 || c == Char.ofNat 44

/-- Go `parseNanoseconds(value, nbytes)` where `value[0]` is a comma or a period
and `value[1:nbytes]` are digits: at most nine fraction digits are read and
scaled to nanoseconds. -/
def parseNanoseconds (value : Str) (nbytes : Nat) : Option Nat :=
  let nb := if nbytes > 10 then 10 else nbytes
  let v := if nbytes > 10 then value.take 10 else value
  match atoi ((v.take nb).drop 1) with
  | none => none
  | some ns => some (ns * 10 ^ (10 - nb))

/-- The fields `Parse` accumulates. -/
structure Fields where
  year : Nat
  month : Nat
  day : Nat
  hour : Nat
  min : Nat
  sec : Nat
  nsec : Nat
  deriving DecidableEq, Repr

/-- The chunks `nextStdChunk` cuts a layout into. -/
inductive Chunk where
  | lit (c : Char)
  | stdLongYear
  | stdZeroMonth
  | stdZeroDay
  | stdHour
  | stdZeroMinute
  | stdZeroSecond
  deriving DecidableEq, Repr

/-- Layout `"20060102"`. -/
def layoutDate : List Chunk := [.stdLongYear, .stdZeroMonth, .stdZeroDay]

/-- Layout `"20060102T150405Z"`; `T` and `Z` are literal text (a lone `Z` is not
a zone chunk). -/
def layoutUTC : List Chunk :=
  [.stdLongYear, .stdZeroMonth, .stdZeroDay, .lit (Char.ofNat 84), .stdHour, .stdZeroMinute,
    .stdZeroSecond, .lit (Char.ofNat 90)]

/-- Layout `"20060102T150405"`. -/
def layoutLocal : List Chunk :=
  [.stdLongYear, .stdZeroMonth, .stdZeroDay, .lit (Char.ofNat 84), .stdHour, .stdZeroMinute,
    .stdZeroSecond]

/-- Layout `"2006-01-02"`; a hyphen not followed by `07` is literal text. -/
def layoutISO : List Chunk :=
  [.stdLongYear, .lit (Char.ofNat 45), .stdZeroMonth, .lit (Char.ofNat 45), .stdZeroDay]

/-- Length of the run of digits of `value` from index 2 on, plus 2: the `n` of
the fractional-second special case. -/
def fracEnd (value : Str) : Nat := 2 + ((value.drop 2).takeWhile isDigitChar).length

/-- One iteration of the loop of `Parse`: consume the text of one chunk. -/
def parseChunk (ch : Chunk) (f : Fields) (value : Str) : Option (Fields × Str) :=
  match ch with
  | .lit c =>
    match value with
    | x :: rest => if x = c then some (f, rest) else none
    | [] => none
  | .stdLongYear =>
    match value with
    | a :: b :: c :: d :: rest =>
      if isDigitChar a then
        match atoi [a, b, c, d] with
        | some y => some ({ f with year := y }, rest)
        | none => none
      else none
    | _ => none
  | .stdZeroMonth =>
    match getnum value true with
    | some (m, rest) => if m ≤ 0 || 12 < m then none else some ({ f with month := m }, rest)
    | none => none
  | .stdZeroDay =>
    match getnum value true with
    | some (d, rest) => some ({ f with day := d }, rest)
    | none => none
  | .stdHour =>
    match getnum value false with
    | some (h, rest) => if 24 ≤ h then none else some ({ f with hour := h }, rest)
    | none => none
  | .stdZeroMinute =>
    match getnum value true with
    | some (m, rest) => if 60 ≤ m then none else some ({ f with min := m }, rest)
    | none => none
  | .stdZeroSecond =>
    match getnum value true with
    | some (s, rest) =>
      if 60 ≤ s then none
      else
        match rest with
        | p :: q :: _ =>
          if commaOrPeriod p && isDigitChar q then
            match parseNanoseconds rest (fracEnd rest) with
            | some ns => some ({ f with sec := s, nsec := ns }, rest.drop (fracEnd rest))
            | none => none
          else some ({ f with sec := s }, rest)
        | _ => some ({ f with sec := s }, rest)
    | none => none

/-- The loop of `Parse` over the chunks of the layout; text left over after the
last chunk is an error. -/
def parseChunks : List Chunk → Fields → Str → Option Fields
  | [], f, value => if value.isEmpty then some f else none
  | ch :: rest, f, value =>
    match parseChunk ch f value with
    | some (f1, value1) => parseChunks rest f1 value1
    | none => none

/-- Go `time.Parse(layout, value)` for a layout without a zone: the fields are
read chunk by chunk, the day of the month is validated, and the instant is
`Date(...)` in UTC. The month and the day start at January and 1, the values
`Parse` substitutes when the layout sets none; the four layouts set both. -/
def timeParse (layout : List Chunk) (value : Str) : Option Time :=
  match parseChunks layout ⟨0, 1, 1, 0, 0, 0, 0⟩ value with
  | some f =>
    if f.day < 1 || f.day > daysIn f.month f.year then none
    else some (Date f.year f.month f.day f.hour f.min f.sec f.nsec)
  | none => none

/-! ## parseDate and isInDateRange -/

/-- The loop of `parseDate`: the first layout that parses wins. -/
def parseFormats : List (List Chunk) → Str → Option Time
  | [], _ => none
  | format :: rest, dateStr =>
    match timeParse format dateStr with
    | some t => some t
    | none => parseFormats rest dateStr

/-- Source `parseDate`. -/
def parseDate (dateStr : Str) : Option Time :=
  parseFormats [layoutDate, layoutUTC, layoutLocal] dateStr

/-- Source `isInDateRange`. -/
def isInDateRange (eventStart eventEnd rangeStart rangeEnd : Str) : Bool :=
  match timeParse layoutISO rangeStart, timeParse layoutISO rangeEnd with
  | some startDate, some endDate =>
    match parseDate eventStart with
    | none => true
    | some evtStart =>
      if len eventStart = 8 then
        !Before evtStart startDate && !After evtStart (AddDate001 endDate)
      else
        let evtEnd :=
          if eventEnd ≠ [] then
            match parseDate eventEnd with
            | some parsed => parsed
            | none => evtStart
          else evtStart
        !After evtStart endDate && !Before evtEnd startDate
  | _, _ => true

/-! ## Package strings -/

/-- Go `strings.HasPrefix(s, prefix)`. -/
def HasPrefix (s pre : Str) : Bool := pre.isPrefixOf s

/-- Go `strings.Contains(s, substr)`. -/
def Contains : Str → Str → Bool
  | [], substr => substr.isEmpty
  | c :: t, substr => HasPrefix (c :: t) substr || Contains t substr

/-- The scan of `strings.ReplaceAll`: the first argument counts the characters of
an occurrence of `old` still to be skipped. -/
def replaceAux (old new : Str) : Nat → Str → Str
  | _, [] => []
  | skip + 1, _ :: t => replaceAux old new skip t
  | 0, c :: t =>
    if HasPrefix (c :: t) old then new ++ replaceAux old new (old.length - 1) t
    else c :: replaceAux old new 0 t

/-- Go `strings.ReplaceAll(s, old, new)` for a non-empty `old`: the
non-overlapping occurrences of `old`, leftmost first, are replaced by `new`. -/
def ReplaceAll (s old new : Str) : Str := replaceAux old new 0 s

/-- Go `strings.Split(s, sep)` for a one-character separator. -/
def Split (sep : Char) : Str → List Str
  | [] => [[]]
  | c :: t =>
    if c = sep then [] :: Split sep t
    else
      match Split sep t with
      | h :: r => (c :: h) :: r
      | [] => [[c]]

/-- Go `strings.SplitN(s, sep, 2)` for a one-character separator: the text before
the first separator and the text after it, or the text alone without one. -/
def SplitN2 (sep : Char) : Str → List Str
  | [] => [[]]
  | c :: t =>
    if c = sep then [[], t]
    else
      match SplitN2 sep t with
      | [k, v] => [c :: k, v]
      | _ => [c :: t]

/-- Go `unicode.IsSpace`. -/
def isSpace (c : Char) : Bool :=
  let n := c.toNat
  n == 9 || n == 10 || n == 11 || n == 12 || n == 13 || n == 32 || n == 133 || n == 160
    || n == 5760 || (decide (8192 ≤ n) && decide (n ≤ 8202)) || n == 8232 || n == 8233
    || n == 8239 || n == 8287 || n == 12288

/-- Go `strings.TrimSpace`. -/
def TrimSpace (s : Str) : Str :=
  ((s.dropWhile isSpace).reverse.dropWhile isSpace).reverse

/-- Go `unicode.ToUpper` as far as the comparisons of `main` can see it: the
code points whose upper case is an ASCII letter are `a`..`z`, U+0131 (dotless i)
and U+017F (long s); every other code point has a non-ASCII upper case or is
unchanged, and is left in place here. -/
def toUpperRune (c : Char) : Char :=
  if 97 ≤ c.toNat ∧ c.toNat ≤ 122 then Char.ofNat (c.toNat - 32)
  else if c.toNat = 305 then Char.ofNat 73
  else if c.toNat = 383 then Char.ofNat 83
  else c

/-- Go `strings.ToUpper`. -/
def ToUpper (s : Str) : Str := s.map toUpperRune

/-! ## Package regexp: the two patterns of `main` -/

/-- The pieces the two patterns are made of: a literal character, and the greedy
repetition `[^c]*` of a negated one-character class. -/
inductive Item where
  | chr (c : Char)
  | notStar (c : Char)
  deriving DecidableEq, Repr

/-- The literal characters of a text, as pattern items. -/
def lits (s : Str) : List Item := s.map Item.chr

/-- The text `BEGIN:VEVENT`. -/
def beginMark : Str := "BEGIN:VEVENT".toList

/-- The text `END:VEVENT`. -/
def endMark : Str := "END:VEVENT".toList

/-- Greedy `[^c]*` followed by the continuation `k`: the longest run is tried
first, then shorter ones (leftmost-first backtracking order). The result is the
number of characters matched. -/
def starNot (c : Char) (k : Str → Option Nat) : Str → Option Nat
  | [] => k []
  | x :: xs =>
    if x ≠ c then
      match starNot c k xs with
      | some n => some (n + 1)
      | none => k (x :: xs)
    else k (x :: xs)

/-- Match a pattern at the start of the text; the number of characters of the
preferred match. -/
def matchItems : List Item → Str → Option Nat
  | [], _ => some 0
  | .chr c :: r, s =>
    match s with
    | x :: xs => if x = c then (matchItems r xs).map (· + 1) else none
    | [] => none
  | .notStar c :: r, s => starNot c (matchItems r) s

/-- The scan of `FindAllString`: leftmost match, then on from its end; the first
argument counts the characters of the last match still to be passed. -/
def findAllAux (re : List Item) : Nat → Str → List Str
  | _, [] => []
  | skip + 1, _ :: t => findAllAux re skip t
  | 0, c :: t =>
    match matchItems re (c :: t) with
    | some n => (c :: t).take n :: findAllAux re (n - 1) t
    | none => findAllAux re 0 t

/-- Go `re.FindAllString(input, -1)` for a pattern that matches no empty text. -/
def FindAllString (re : List Item) (input : Str) : List Str := findAllAux re 0 input

/-- The single quote. -/
def quote : Char := Char.ofNat 39

/-- The pattern `'([^']*BEGIN:VEVENT[^']*END:VEVENT[^']*)'`, without its group. -/
def quotedRe : List Item :=
  [.chr quote, .notStar quote] ++ lits beginMark ++ [.notStar quote] ++ lits endMark
    ++ [.notStar quote, .chr quote]

/-- The pattern `BEGIN:VEVENT[^E]*END:VEVENT`. -/
def unquotedRe : List Item :=
  lits beginMark ++ [.notStar (Char.ofNat 69)] ++ lits endMark

/-- Go `re.FindAllStringSubmatch(input, -1)` for `quotedRe`: each match with its
group 1, which spans the match without its first and its last character (the two
quotes). -/
def FindAllStringSubmatch (input : Str) : List (List Str) :=
  (FindAllString quotedRe input).map fun m => [m, (m.drop 1).dropLast]

/-! ## main -/

/-- Source `Event`. -/
structure Event where
  ID : Str
  Title : Str
  Description : Str
  Location : Str
  Start : Str
  End : Str
  AllDay : Bool
  Calendar : Str
  Color : Str
  deriving DecidableEq, Repr

/-- The key `SUMMARY`. -/
def summaryKey : Str := "SUMMARY".toList

/-- The body of the loop over the lines of a block. -/
def applyLine (event : Event) (line0 : Str) : Event :=
  let line := TrimSpace line0
  if !Contains line ":".toList then event
  else
    match SplitN2 (Char.ofNat 58) line with
    | [part0, value] =>
      let key := ToUpper part0
      if key = "UID".toList then { event with ID := value }
      else if key = summaryKey then { event with Title := value }
      else if key = "DESCRIPTION".toList then { event with Description := value }
      else if key = "LOCATION".toList then { event with Location := value }
      else if HasPrefix key "DTSTART".toList then
        { event with Start := value, AllDay := Contains line ";VALUE=DATE:".toList }
      else if HasPrefix key "DTEND".toList then { event with End := value }
      else event
    | _ => event

/-- The event literal of `main`: the defaults. -/
def newEvent : Event :=
  ⟨[], [], [], [], [], [], false, "Personal".toList, "#1976d2".toList⟩

/-- The event built from an unescaped block. -/
def buildEvent (icalData : Str) : Event :=
  (Split (Char.ofNat 10) icalData).foldl applyLine newEvent

/-- The two `ReplaceAll` calls of `main`: the four characters backslash, r,
backslash, n, then the two characters backslash, n, become a line feed. -/
def unescape (icalData : Str) : Str :=
  ReplaceAll (ReplaceAll icalData "\\r\\n".toList "\n".toList) "\\n".toList "\n".toList

/-- The body of the loop over `matches`. -/
def processMatch (startDateStr endDateStr : Str) (events : List Event) (m : List Str) :
    List Event :=
  match m with
  | _ :: raw :: _ =>
    let icalData := unescape raw
    if !Contains icalData beginMark then events
    else
      let event := buildEvent icalData
      if event.Title ≠ [] && isInDateRange event.Start event.End startDateStr endDateStr then
        events ++ [event]
      else events
  | _ => events

/-- The blocks `main` extracts: the quoted matches, or without any the unquoted
matches, each as the pair `[match, match]`. -/
def extractMatches (input : Str) : List (List Str) :=
  let ms := FindAllStringSubmatch input
  if ms.length = 0 then (FindAllString unquotedRe input).map fun m => [m, m]
  else ms

/-- The slice `events` that `main` hands to `json.Marshal`, from the text read
and the two range strings. -/
def pipeline (input startDateStr endDateStr : Str) : List Event :=
  (extractMatches input).foldl (processMatch startDateStr endDateStr) []

/-- The reading loop of `main`: every line the scanner yields, followed by a
line feed. -/
def readInput (lines : List Str) : Str :=
  lines.foldl (fun input text => input ++ (text ++ "\n".toList)) []

/-! ## Specification-side vocabulary -/

/-- The decimal digit character of `n % 10`. -/
def digitChar (n : Nat) : Char := Char.ofNat (48 + n % 10)

/-- Two decimal digits. -/
def pad2 (n : Nat) : Str := [digitChar (n / 10), digitChar n]

/-- Four decimal digits. -/
def pad4 (n : Nat) : Str :=
  [digitChar (n / 1000), digitChar (n / 100), digitChar (n / 10), digitChar n]

/-- The 8-character token `YYYYMMDD` of a date. -/
def dateToken (y m d : Nat) : Str := pad4 y ++ pad2 m ++ pad2 d

/-- The triple `y`, `m`, `d` names a calendar date with a four-digit year. -/
def ValidDate (y m d : Nat) : Prop :=
  y ≤ 9999 ∧ 1 ≤ m ∧ m ≤ 12 ∧ 1 ≤ d ∧ d ≤ daysIn m y

/-- Midnight UTC at the start of a date. -/
def midnight (y m d : Nat) : Time := Date y m d 0 0 0 0

/-- One day, in nanoseconds. -/
def oneDay : Nat := 86400 * 1000000000

/-- The end instant of the timed rule as the specification words it: the parsed
end token when it is non-empty and the date parser accepts it, the event start
otherwise. -/
def effectiveEnd (eventEnd : Str) (evtStart : Time) : Time :=
  match parseDate eventEnd with
  | some t => if eventEnd = [] then evtStart else t
  | none => evtStart

/-- The event the loop body builds for one match, before the title and range
test: none when the match has no group or the unescaped block does not contain
`BEGIN:VEVENT`. -/
def builtEvent (m : List Str) : Option Event :=
  match m with
  | _ :: raw :: _ =>
    if Contains (unescape raw) beginMark then some (buildEvent (unescape raw))
    else none
  | _ => none

/-- The events built from the extracted blocks of an input, in extraction order. -/
def builtEvents (input : Str) : List Event := (extractMatches input).filterMap builtEvent

/-- The keeping test of the pipeline: a non-empty title and a start and end that
pass the range matcher. -/
def keeps (startDateStr endDateStr : Str) (e : Event) : Bool :=
  decide (e.Title ≠ []) && isInDateRange e.Start e.End startDateStr endDateStr

/-- The upper-cased key of a property line: the text before the first colon of
the trimmed line, upper-cased; none for a line without a colon. -/
def lineKey (line0 : Str) : Option Str :=
  if Char.ofNat 58 ∈ TrimSpace line0 then
    some (ToUpper ((TrimSpace line0).takeWhile fun c => c ≠ Char.ofNat 58))
  else none

/-- The input text of the end-to-end example: one single-quoted block whose
properties are separated by the two characters backslash, n. -/
def standupInput : Str :=
  "'BEGIN:VEVENT\\nUID:1\\nSUMMARY:Standup\\nDTSTART:20240610T090000Z\\nDTEND:20240610T093000Z\\nEND:VEVENT'".toList

/-- The event the end-to-end example expects. -/
def standupEvent : Event :=
  ⟨"1".toList, "Standup".toList, [], [], "20240610T090000Z".toList, "20240610T093000Z".toList,
    false, "Personal".toList, "#1976d2".toList⟩

/-- The texts a pattern matches, declaratively: a literal matches itself and
`[^c]*` matches any run of characters other than `c`. -/
inductive Matches : List Item → Str → Prop where
  | nil : Matches [] []
  | chr (c : Char) (r : List Item) (p : Str) : Matches r p → Matches (.chr c :: r) (c :: p)
  | star (c : Char) (a : Str) (r : List Item) (p : Str) :
      (∀ x ∈ a, x ≠ c) → Matches r p → Matches (.notStar c :: r) (a ++ p)

/-- An input made of single-quoted blocks: the text `pre`, then for each pair
the first component between single quotes followed by the second component. -/
def quotedInput (pre : Str) (blocks : List (Str × Str)) : Str :=
  pre ++ blocks.flatMap fun b => quote :: (b.1 ++ quote :: b.2)

/-- An input with a single-quoted block `A` followed by an unquoted block `B`,
lines separated by line feeds. -/
def mixedInput : Str :=
  "'BEGIN:VEVENT\nSUMMARY:A\nEND:VEVENT'\nBEGIN:VEVENT\nSUMMARY:B\nEND:VEVENT\n".toList

/-- The unquoted block `B` of `mixedInput` on its own. -/
def unquotedB : Str := "BEGIN:VEVENT\nSUMMARY:B\nEND:VEVENT\n".toList

/-- An event that has only a title. -/
def titled (title : Str) : Event :=
  ⟨[], title, [], [], [], [], false, "Personal".toList, "#1976d2".toList⟩

/-- The value of a property line: the text after the first colon of the trimmed
line. -/
def lineValue (line0 : Str) : Str :=
  ((TrimSpace line0).dropWhile fun c => c ≠ Char.ofNat 58).tail

/-- A property line whose upper-cased key starts with `DTSTART`. -/
def isStartLine (line : Str) : Bool :=
  match lineKey line with
  | some key => HasPrefix key "DTSTART".toList
  | none => false

/-- The quoted pattern matches somewhere in the input. -/
def QuotedMatchExists (input : Str) : Prop :=
  ∃ pre p suf, input = pre ++ p ++ suf ∧ Matches quotedRe p

/-- The lines of a block joined with a separator between consecutive lines. -/
def joinLines (sep : Str) : List Str → Str
  | [] => []
  | [l] => l
  | l :: l2 :: ls => l ++ sep ++ joinLines sep (l2 :: ls)

/-- The backslash. -/
def backslash : Char := Char.ofNat 92

/-- The four characters backslash, r, backslash, n. -/
def escCRLF : Str := [backslash, Char.ofNat 114, backslash, Char.ofNat 110]

/-- The two characters backslash, n. -/
def escLF : Str := [backslash, Char.ofNat 110]

/-- The line feed, as a text. -/
def lineFeed : Str := [Char.ofNat 10]

/-- The capital letter E. -/
def capE : Char := Char.ofNat 69

/-- The unquoted block made of the lines `BEGIN:VEVENT`, `SUMMARY:Test`,
`END:VEVENT`, separated by the line break `nl`. -/
def testBlock (nl : Str) : Str :=
  beginMark ++ (nl ++ "SUMMARY:Test".toList ++ nl ++ endMark)

/-- The number of positions of a text at which `sub` occurs. -/
def countOcc (sub : Str) : Str → Nat
  | [] => 0
  | c :: t => (if HasPrefix (c :: t) sub then 1 else 0) + countOcc sub t

/-- A text cut into non-overlapping blocks in order: the leading text, then each
block followed by the text up to the next block. -/
def blocksInText (pre : Str) (parts : List (Str × Str)) : Str :=
  pre ++ parts.flatMap fun p => p.1 ++ p.2

/-- Two texts differ at a position both have. -/
def clash : Str → Str → Bool
  | x :: l, y :: s => x != y || clash l s
  | _, _ => false

/-- Every non-empty suffix of `l` clashes with `sub`. -/
def clashAll (sub : Str) : Str → Bool
  | [] => true
  | x :: l => clash (x :: l) sub && clashAll sub l

/-- An input with two unquoted blocks of two lines each. -/
def twoBlocks : Str :=
  "BEGIN:VEVENT\nSUMMARY:a\nEND:VEVENT BEGIN:VEVENT\nSUMMARY:b\nEND:VEVENT\n".toList

/-- The capital letter T. -/
def capT : Char := Char.ofNat 84

/-- The capital letter Z. -/
def capZ : Char := Char.ofNat 90

/-- An optional fractional second: nothing, or a period or comma followed by one
or more digits. -/
def IsFrac (frac : Str) : Prop :=
  frac = [] ∨ ∃ sep d0 ds, frac = sep :: d0 :: ds ∧ commaOrPeriod sep = true ∧
    isDigitChar d0 = true ∧ ∀ c ∈ ds, isDigitChar c = true

/-- The value of a run of decimal digits. -/
def decimalValue (ds : Str) : Nat := ds.foldl (fun x c => x * 10 + digitVal c) 0

/-- The nanoseconds of a fractional second: its first nine digits, scaled. -/
def fracNanos (frac : Str) : Nat :=
  decimalValue ((frac.drop 1).take 9) * 10 ^ (9 - ((frac.drop 1).take 9).length)

/-- The hour, minute and second of a time of day. -/
def ValidClock (h mi s : Nat) : Prop := h < 24 ∧ mi < 60 ∧ s < 60

/-- The token of a timestamp: the date, `T`, two digits each for hour, minute and
second, an optional fractional second, and the zone text (`Z` or nothing). -/
def timeToken (y m d h mi s : Nat) (frac zone : Str) : Str :=
  dateToken y m d ++ capT :: (pad2 h ++ (pad2 mi ++ (pad2 s ++ (frac ++ zone))))

/-- The 10-character token `YYYY-MM-DD` of a date. -/
def isoToken (y m d : Nat) : Str :=
  pad4 y ++ Char.ofNat 45 :: (pad2 m ++ Char.ofNat 45 :: pad2 d)

/-- Calendar order on dates: strictly earlier. -/
def DateLt (y m d y1 m1 d1 : Nat) : Prop :=
  y < y1 ∨ (y = y1 ∧ (m < m1 ∨ (m = m1 ∧ d < d1)))

end CalendarEvents

/-! ## Theorems -/

namespace CalendarEvents

/-! ### Digits -/

theorem isDigitChar_digitChar (n : Nat) : isDigitChar (digitChar n) = true := by
  unfold digitChar
  have h : n % 10 < 10 := Nat.mod_lt _ (by decide)
  generalize n % 10 = k at h
  interval_cases k <;> rfl

theorem digitVal_digitChar (n : Nat) : digitVal (digitChar n) = n % 10 := by
  unfold digitChar
  have h : n % 10 < 10 := Nat.mod_lt _ (by decide)
  generalize n % 10 = k at h
  interval_cases k <;> rfl

theorem runeLen_digitChar (n : Nat) : runeLen (digitChar n) = 1 := by
  unfold digitChar
  have h : n % 10 < 10 := Nat.mod_lt _ (by decide)
  generalize n % 10 = k at h
  interval_cases k <;> rfl

theorem getnum_pad2 (n : Nat) (hn : n < 100) (rest : Str) :
    getnum (pad2 n ++ rest) true = some (n, rest) := by
  simp only [pad2, List.cons_append, List.nil_append, getnum, isDigitChar_digitChar,
    digitVal_digitChar, if_true]
  congr 2
  omega

theorem parseChunk_year (f : Fields) (y : Nat) (hy : y ≤ 9999) (rest : Str) :
    parseChunk .stdLongYear f (pad4 y ++ rest) = some ({ f with year := y }, rest) := by
  have h : (((0 * 10 + y / 1000 % 10) * 10 + y / 100 % 10) * 10 + y / 10 % 10) * 10 + y % 10 = y := by
    omega
  simp only [pad4, List.cons_append, List.nil_append, parseChunk, atoi, leadingInt,
    isDigitChar_digitChar, digitVal_digitChar, if_true, h]

theorem len_dateToken (y m d : Nat) : len (dateToken y m d) = 8 := by
  simp [dateToken, pad4, pad2, len, runeLen_digitChar]

theorem daysIn_le (m y : Nat) : daysIn m y ≤ 31 := by
  unfold daysIn
  split
  · decide
  · by_cases hm : m ≤ 12
    · interval_cases m <;> decide
    · have h1 : daysBefore m = 0 := by
        unfold daysBefore
        rw [List.getD_eq_default]
        simp
        omega
      rw [h1]
      omega

theorem timeParse_dateToken (y m d : Nat) (h : ValidDate y m d) :
    timeParse layoutDate (dateToken y m d) = some (midnight y m d) := by
  obtain ⟨hy, hm1, hm, hd1, hd⟩ := h
  have hd31 := daysIn_le m y
  have e1 : dateToken y m d = pad4 y ++ (pad2 m ++ (pad2 d ++ [])) := by
    simp [dateToken]
  have hm0 : ¬ (m ≤ 0) := by omega
  have hm12 : ¬ (12 < m) := by omega
  have hd0 : ¬ (d < 1) := by omega
  have hdd : ¬ (d > daysIn m y) := by omega
  simp only [timeParse, layoutDate, parseChunks, e1, parseChunk_year _ y hy]
  have gd : getnum (pad2 d) true = some (d, []) := by
    have g := getnum_pad2 d (by omega) []
    simpa using g
  simp only [parseChunk, getnum_pad2 m (by omega)]
  simp [hm0, hm12, hd0, hdd, midnight, gd]

theorem parseDate_dateToken (y m d : Nat) (h : ValidDate y m d) :
    parseDate (dateToken y m d) = some (midnight y m d) := by
  simp [parseDate, parseFormats, timeParse_dateToken y m d h]

/-! ### The range matcher -/

/-- C1. All-day rule: with range strings that parse as `YYYY-MM-DD` and an event
start that is the 8-character token of a valid calendar date, `isInDateRange` is
true exactly when the event's midnight is not before the start of the range and
not after the end of the range plus one day, whatever the end token. -/
theorem isInDateRange_allDay_rule (y m d : Nat) (eventEnd rangeStart rangeEnd : Str)
    (startDate endDate : Time) (hv : ValidDate y m d)
    (hs : timeParse layoutISO rangeStart = some startDate)
    (he : timeParse layoutISO rangeEnd = some endDate) :
    isInDateRange (dateToken y m d) eventEnd rangeStart rangeEnd = true ↔
      (midnight y m d ≥ startDate ∧ midnight y m d ≤ endDate + oneDay) := by
  simp only [isInDateRange, hs, he, parseDate_dateToken y m d hv, len_dateToken, if_true,
    Before, After, AddDate001, oneDay, secondsPerDay, nanosPerSecond]
  simp

/-- C1, at the date 2024-06-15: included by the range 2024-06-15..2024-06-15,
excluded by the range 2024-06-16..2024-06-16. -/
theorem isInDateRange_allDay_rule_witness :
    isInDateRange "20240615".toList [] "2024-06-15".toList "2024-06-15".toList = true ∧
    isInDateRange "20240615".toList [] "2024-06-16".toList "2024-06-16".toList = false := by
  have hv : ValidDate 2024 6 15 := by unfold ValidDate; decide
  constructor
  · exact (isInDateRange_allDay_rule 2024 6 15 [] "2024-06-15".toList "2024-06-15".toList
      (midnight 2024 6 15) (midnight 2024 6 15) hv (by decide) (by decide)).mpr
      ⟨by decide, by decide⟩
  · have h := isInDateRange_allDay_rule 2024 6 15 [] "2024-06-16".toList "2024-06-16".toList
      (midnight 2024 6 16) (midnight 2024 6 16) hv (by decide) (by decide)
    have e : dateToken 2024 6 15 = "20240615".toList := by decide
    rw [e] at h
    cases hb : isInDateRange "20240615".toList [] "2024-06-16".toList "2024-06-16".toList
    · rfl
    · exact absurd (h.mp hb).1 (by decide)

/-- C2. Timed rule: with a parseable range and an event start that `parseDate`
accepts and whose length is not 8, `isInDateRange` is true exactly when neither
the event start is after the range end nor the effective event end is before the
range start. -/
theorem isInDateRange_timed_rule (eventStart eventEnd rangeStart rangeEnd : Str)
    (startDate endDate evtStart : Time)
    (hs : timeParse layoutISO rangeStart = some startDate)
    (he : timeParse layoutISO rangeEnd = some endDate)
    (hp : parseDate eventStart = some evtStart) (hlen : len eventStart ≠ 8) :
    isInDateRange eventStart eventEnd rangeStart rangeEnd = true ↔
      ¬ (evtStart > endDate ∨ effectiveEnd eventEnd evtStart < startDate) := by
  have hE : (if eventEnd ≠ [] then
      (match parseDate eventEnd with
        | some parsed => parsed
        | none => evtStart)
      else evtStart) = effectiveEnd eventEnd evtStart := by
    unfold effectiveEnd
    by_cases h0 : eventEnd = []
    · subst h0
      cases parseDate ([] : Str) <;> simp
    · cases parseDate eventEnd <;> simp [h0]
  simp only [isInDateRange, hs, he, hp, hlen, if_false, hE, Before, After]
  simp

/-- C2, at the start 20240615T100000Z and end 20240615T120000Z: excluded by the
range 2024-06-16..2024-06-20. -/
theorem isInDateRange_timed_rule_witness :
    isInDateRange "20240615T100000Z".toList "20240615T120000Z".toList "2024-06-16".toList
      "2024-06-20".toList = false := by
  have h := isInDateRange_timed_rule "20240615T100000Z".toList "20240615T120000Z".toList
    "2024-06-16".toList "2024-06-20".toList (midnight 2024 6 16) (midnight 2024 6 20)
    (Date 2024 6 15 10 0 0 0) (by decide) (by decide) (by decide) (by decide)
  cases hb : isInDateRange "20240615T100000Z".toList "20240615T120000Z".toList
      "2024-06-16".toList "2024-06-20".toList
  · rfl
  · exact absurd (Or.inr (by decide)) (h.mp hb)

/-- C3. The all-day event of 2024-06-15 is included by the range
2024-06-14..2024-06-14, which ends the day before: its midnight equals the end of
the range plus one day, and the comparison with that bound is not strict. -/
theorem allDay_dayAfterRange_included :
    isInDateRange "20240615".toList [] "2024-06-14".toList "2024-06-14".toList = true := by
  decide

/-- C4. The timed event 20240615T100000Z..20240615T120000Z is excluded by the
range 2024-06-15..2024-06-15: the timed branch compares the start with midnight
at the beginning of the end date. -/
theorem timed_onLastDay_excluded :
    isInDateRange "20240615T100000Z".toList "20240615T120000Z".toList "2024-06-15".toList
      "2024-06-15".toList = false := by
  decide

/-! ### The pipeline as a filter -/

theorem processMatch_eq (rs re : Str) (events : List Event) (m : List Str) :
    processMatch rs re events m = events ++ ((builtEvent m).toList.filter (keeps rs re)) := by
  unfold processMatch builtEvent
  split
  · rename_i raw _
    dsimp only
    generalize Contains (unescape raw) beginMark = c
    cases c
    · simp
    · by_cases hk : keeps rs re (buildEvent (unescape raw)) = true
      · have hk2 := hk
        simp only [keeps, Bool.and_eq_true, decide_eq_true_eq] at hk2
        simp [hk, hk2.1, hk2.2]
      · have hk2 := hk
        simp only [keeps, Bool.and_eq_true, decide_eq_true_eq] at hk2
        simp only [Bool.not_true, Bool.false_eq_true, if_false, if_true, Option.toList,
          List.filter_cons, hk, List.filter_nil, List.append_nil]
        rw [if_neg]
        simpa using hk2
  · simp

theorem foldl_processMatch (rs re : Str) (ms : List (List Str)) (events : List Event) :
    ms.foldl (processMatch rs re) events
      = events ++ (ms.filterMap builtEvent).filter (keeps rs re) := by
  induction ms generalizing events with
  | nil => simp
  | cons m ms ih =>
    rw [List.foldl_cons, ih, processMatch_eq, List.filterMap_cons]
    cases builtEvent m with
    | none => simp
    | some e =>
      simp only [Option.toList, List.append_assoc, List.filter_cons, List.filter_nil]
      split <;> simp

theorem pipeline_eq_filter (input rs re : Str) :
    pipeline input rs re = (builtEvents input).filter (keeps rs re) := by
  unfold pipeline builtEvents
  rw [foldl_processMatch]
  simp

theorem isInDateRange_badRange (es ee rs re : Str)
    (h : timeParse layoutISO rs = none ∨ timeParse layoutISO re = none) :
    isInDateRange es ee rs re = true := by
  unfold isInDateRange
  rcases h with h | h
  · rw [h]
  · rw [h]
    cases timeParse layoutISO rs <;> rfl

/-- C5. Permissive range: when one of the two range strings does not parse as
`YYYY-MM-DD`, `isInDateRange` is true for every event start and end, and the
pipeline output is exactly the built events with a non-empty title, whatever
their dates. -/
theorem permissive_range (rangeStart rangeEnd : Str)
    (h : timeParse layoutISO rangeStart = none ∨ timeParse layoutISO rangeEnd = none) :
    (∀ eventStart eventEnd, isInDateRange eventStart eventEnd rangeStart rangeEnd = true) ∧
    (∀ input, pipeline input rangeStart rangeEnd
      = (builtEvents input).filter fun e => decide (e.Title ≠ [])) := by
  refine ⟨fun es ee => isInDateRange_badRange es ee _ _ h, fun input => ?_⟩
  rw [pipeline_eq_filter]
  congr 1
  funext e
  simp [keeps, isInDateRange_badRange _ _ _ _ h]

/-- C5, at the range strings `not-a-date` and the empty string: an all-day event
of 1999 and a timed event of 2031 both pass. -/
theorem permissive_range_witness :
    isInDateRange "19990101".toList [] "not-a-date".toList [] = true ∧
    isInDateRange "20310101T000000Z".toList "20310102T000000Z".toList [] "2024-06-15".toList
      = true :=
  ⟨(permissive_range "not-a-date".toList [] (Or.inl (by decide))).1 _ _,
    (permissive_range [] "2024-06-15".toList (Or.inl (by decide))).1 _ _⟩

/-- C6. Permissive event start: when `parseDate` rejects the event start token,
`isInDateRange` is true for every end token and every range. -/
theorem permissive_eventStart (eventStart eventEnd rangeStart rangeEnd : Str)
    (h : parseDate eventStart = none) :
    isInDateRange eventStart eventEnd rangeStart rangeEnd = true := by
  unfold isInDateRange
  rw [h]
  cases timeParse layoutISO rangeStart <;> cases timeParse layoutISO rangeEnd <;> rfl

/-- C6, at the empty start token of an event without a DTSTART line and at a
start token in the wrong shape, with a parseable range far from the event. -/
theorem permissive_eventStart_witness :
    isInDateRange [] "20240615T120000Z".toList "2031-01-01".toList "2031-01-02".toList = true ∧
    isInDateRange "2024-06-15".toList [] "2031-01-01".toList "2031-01-02".toList = true :=
  ⟨permissive_eventStart [] _ _ _ (by decide),
    permissive_eventStart "2024-06-15".toList _ _ _ (by decide)⟩

/-- C7, refuted: the end token `20240615T1200` is non-empty and rejected by
`parseDate`, the start token is accepted and timed, and the event is excluded by
the range 2024-06-16..2024-06-20. -/
theorem failOpen_end_counterexample :
    parseDate "20240615T1200".toList = none ∧
    parseDate "20240615T100000Z".toList = some (Date 2024 6 15 10 0 0 0) ∧
    isInDateRange "20240615T100000Z".toList "20240615T1200".toList "2024-06-16".toList
      "2024-06-20".toList = false := by
  decide

/-- C7, amended. A rejected start token makes `isInDateRange` true for every
range; a rejected end token is treated as an absent one: the result is that of
the same call with the empty end token. -/
theorem failOpen_amended (eventStart eventEnd rangeStart rangeEnd : Str) :
    (parseDate eventStart = none →
      isInDateRange eventStart eventEnd rangeStart rangeEnd = true) ∧
    (parseDate eventEnd = none →
      isInDateRange eventStart eventEnd rangeStart rangeEnd
        = isInDateRange eventStart [] rangeStart rangeEnd) := by
  refine ⟨fun h => ?_, fun h => ?_⟩
  · unfold isInDateRange
    rw [h]
    cases timeParse layoutISO rangeStart <;> cases timeParse layoutISO rangeEnd <;> rfl
  · unfold isInDateRange
    rw [h]
    simp

/-- C7 amended, at a rejected start token and at a rejected end token. -/
theorem failOpen_amended_witness :
    isInDateRange "June 15".toList [] "2024-06-16".toList "2024-06-20".toList = true ∧
    isInDateRange "20240615T100000Z".toList "20240615T1200".toList "2024-06-15".toList
        "2024-06-20".toList
      = isInDateRange "20240615T100000Z".toList [] "2024-06-15".toList "2024-06-20".toList :=
  ⟨(failOpen_amended "June 15".toList [] _ _).1 (by decide),
    (failOpen_amended "20240615T100000Z".toList "20240615T1200".toList _ _).2 (by decide)⟩

/-- C8. End-to-end example: for the single-quoted Standup block and the range
2024-06-01..2024-06-30 the pipeline produces exactly the one expected event, both
on the text itself and on the text as the reading loop builds it (the line
followed by a line feed). -/
theorem endToEnd_standup :
    pipeline standupInput "2024-06-01".toList "2024-06-30".toList = [standupEvent] ∧
    pipeline (readInput [standupInput]) "2024-06-01".toList "2024-06-30".toList
      = [standupEvent] := by
  decide

/-! ### Property lines and the title -/

theorem Contains_singleton (c : Char) (s : Str) : Contains s [c] = true ↔ c ∈ s := by
  induction s with
  | nil => simp [Contains]
  | cons x t ih =>
    simp only [Contains, HasPrefix, List.isPrefixOf, Bool.or_eq_true, ih, List.mem_cons,
      Bool.and_true, beq_iff_eq]

theorem SplitN2_of_mem (c : Char) (s : Str) (h : c ∈ s) :
    SplitN2 c s = [s.takeWhile (fun x => x ≠ c), (s.dropWhile fun x => x ≠ c).tail] := by
  induction s with
  | nil => simp at h
  | cons x t ih =>
    by_cases hx : x = c
    · simp [SplitN2, hx]
    · have ht : c ∈ t := by
        rcases List.mem_cons.mp h with h1 | h1
        · exact absurd h1.symm hx
        · exact h1
      simp [SplitN2, hx, ih ht]

theorem SplitN2_of_not_mem (c : Char) (s : Str) (h : c ∉ s) : SplitN2 c s = [s] := by
  induction s with
  | nil => rfl
  | cons x t ih =>
    have hx : ¬ x = c := fun e => h (by simp [e])
    have ht : c ∉ t := fun e => h (List.mem_cons_of_mem _ e)
    simp [SplitN2, hx, ih ht]

theorem applyLine_Title (e : Event) (line : Str) (h : lineKey line ≠ some summaryKey) :
    (applyLine e line).Title = e.Title := by
  unfold applyLine
  by_cases hc : Char.ofNat 58 ∈ TrimSpace line
  · have h1 : Contains (TrimSpace line) ":".toList = true :=
      (Contains_singleton (Char.ofNat 58) _).mpr hc
    have hk : ToUpper ((TrimSpace line).takeWhile fun c => c ≠ Char.ofNat 58) ≠ summaryKey := by
      intro hk
      apply h
      unfold lineKey
      rw [if_pos hc, hk]
    simp only [h1, Bool.not_true, Bool.false_eq_true, if_false, SplitN2_of_mem _ _ hc]
    split_ifs <;> rfl
  · have h1 : ¬ (Contains (TrimSpace line) ":".toList = true) := fun hh =>
      hc ((Contains_singleton (Char.ofNat 58) _).mp hh)
    have h2 : Contains (TrimSpace line) ":".toList = false := by simpa using h1
    simp only [h2, Bool.not_false, if_true]

theorem foldl_applyLine_Title (lines : List Str) (e : Event)
    (h : ∀ line ∈ lines, lineKey line ≠ some summaryKey) :
    (lines.foldl applyLine e).Title = e.Title := by
  induction lines generalizing e with
  | nil => rfl
  | cons l ls ih =>
    rw [List.foldl_cons, ih _ (fun x hx => h x (List.mem_cons_of_mem _ hx)),
      applyLine_Title _ _ (h l (List.mem_cons_self _ _))]

/-- C10. Every event of the pipeline output has a non-empty title, and a block
none of whose lines has a key that upper-cases to `SUMMARY` contributes no event:
the loop body leaves the events unchanged, for every range. -/
theorem no_summary_no_event (input rangeStart rangeEnd : Str) :
    (∀ e ∈ pipeline input rangeStart rangeEnd, e.Title ≠ []) ∧
    (∀ (events : List Event) (m raw : Str),
      (∀ line ∈ Split (Char.ofNat 10) (unescape raw), lineKey line ≠ some summaryKey) →
        processMatch rangeStart rangeEnd events [m, raw] = events) := by
  constructor
  · intro e he
    rw [pipeline_eq_filter, List.mem_filter] at he
    have hk := he.2
    simp only [keeps, Bool.and_eq_true, decide_eq_true_eq] at hk
    exact hk.1
  · intro events m raw h
    have ht : (buildEvent (unescape raw)).Title = [] := by
      unfold buildEvent
      rw [foldl_applyLine_Title _ _ h]
      rfl
    rw [processMatch_eq]
    simp only [builtEvent]
    split_ifs <;> simp [keeps, ht]

/-- C10, at a quoted block with a UID and dates but no SUMMARY line, with an
unparseable range: the loop body adds nothing. -/
theorem no_summary_no_event_witness :
    processMatch [] [] [] [[], "BEGIN:VEVENT\\nUID:7\\nDTSTART:20240610\\nEND:VEVENT".toList]
      = [] :=
  (no_summary_no_event [] [] []).2 [] [] _ (by decide)

/-! ### The matcher against the declarative semantics -/

theorem starNot_sound (c : Char) (k : Str → Option Nat) (s : Str) (n : Nat)
    (h : starNot c k s = some n) :
    ∃ a b m, s = a ++ b ∧ (∀ x ∈ a, x ≠ c) ∧ k b = some m ∧ n = a.length + m := by
  induction s generalizing n with
  | nil => exact ⟨[], [], n, rfl, by simp, by simpa [starNot] using h, by simp⟩
  | cons x xs ih =>
    unfold starNot at h
    by_cases hx : x ≠ c
    · rw [if_pos hx] at h
      cases hr : starNot c k xs with
      | some n1 =>
        rw [hr] at h
        obtain ⟨a, b, m, hs, ha, hk, hn⟩ := ih n1 hr
        refine ⟨x :: a, b, m, by simp [hs], ?_, hk, ?_⟩
        · intro y hy
          rcases List.mem_cons.mp hy with h1 | h1
          · exact h1 ▸ hx
          · exact ha y h1
        · have : n = n1 + 1 := by simpa using h.symm
          simp only [List.length_cons]
          omega
      | none =>
        rw [hr] at h
        exact ⟨[], x :: xs, n, rfl, by simp, h, by simp⟩
    · rw [if_neg hx] at h
      exact ⟨[], x :: xs, n, rfl, by simp, h, by simp⟩

theorem starNot_complete (c : Char) (k : Str → Option Nat) (a b : Str)
    (ha : ∀ x ∈ a, x ≠ c) (hk : (k b).isSome = true) :
    (starNot c k (a ++ b)).isSome = true := by
  induction a with
  | nil =>
    cases b with
    | nil => simpa [starNot] using hk
    | cons y ys =>
      simp only [List.nil_append, starNot]
      split_ifs
      · cases starNot c k ys with
        | some n1 => rfl
        | none => exact hk
      · exact hk
  | cons x a ih =>
    have hx : x ≠ c := ha x (List.mem_cons_self _ _)
    have h1 := ih fun y hy => ha y (List.mem_cons_of_mem _ hy)
    simp only [List.cons_append, starNot, if_pos hx]
    cases hr : starNot c k (a ++ b) with
    | some n1 => rfl
    | none => rw [hr] at h1; exact absurd h1 (by simp)

theorem matchItems_sound (items : List Item) (s : Str) (n : Nat)
    (h : matchItems items s = some n) :
    ∃ p rest, s = p ++ rest ∧ p.length = n ∧ Matches items p := by
  induction items generalizing s n with
  | nil =>
    have : n = 0 := by simpa [matchItems] using h.symm
    exact ⟨[], s, rfl, by simp [this], Matches.nil⟩
  | cons it r ih =>
    cases it with
    | chr c =>
      cases s with
      | nil => simp [matchItems] at h
      | cons x xs =>
        simp only [matchItems] at h
        by_cases hx : x = c
        · rw [if_pos hx] at h
          cases hr : matchItems r xs with
          | none => rw [hr] at h; simp at h
          | some m =>
            rw [hr] at h
            obtain ⟨p, rest, hs, hl, hm⟩ := ih xs m hr
            have hn : n = m + 1 := by simpa using h.symm
            exact ⟨c :: p, rest, by simp [hs, hx], by simp [hl, hn], Matches.chr c r p hm⟩
        · rw [if_neg hx] at h
          simp at h
    | notStar c =>
      simp only [matchItems] at h
      obtain ⟨a, b, m, hs, ha, hk, hn⟩ := starNot_sound c _ s n h
      obtain ⟨p, rest, hb, hl, hm⟩ := ih b m hk
      exact ⟨a ++ p, rest, by simp [hs, hb], by simp [hl, hn], Matches.star c a r p ha hm⟩

theorem matchItems_complete (items : List Item) (p : Str) (h : Matches items p) (rest : Str) :
    (matchItems items (p ++ rest)).isSome = true := by
  induction h with
  | nil => simp [matchItems]
  | chr c r p _ ih =>
    simp only [List.cons_append, matchItems, if_true]
    cases hr : matchItems r (p ++ rest) with
    | some m => rfl
    | none => rw [hr] at ih; exact absurd ih (by simp)
  | star c a r p ha _ ih =>
    simp only [matchItems, List.append_assoc]
    exact starNot_complete c _ a (p ++ rest) ha ih

theorem Matches_lits_intro (l : Str) (r : List Item) (p : Str) (h : Matches r p) :
    Matches (lits l ++ r) (l ++ p) := by
  induction l with
  | nil => exact h
  | cons x l ih => exact Matches.chr x _ _ ih

theorem Matches_lits_elim (l : Str) (r : List Item) (p : Str) (h : Matches (lits l ++ r) p) :
    ∃ p1, p = l ++ p1 ∧ Matches r p1 := by
  induction l generalizing p with
  | nil => exact ⟨p, rfl, h⟩
  | cons x l ih =>
    cases h with
    | chr _ _ p0 h0 =>
      obtain ⟨p1, hp, hm⟩ := ih p0 h0
      exact ⟨p1, by simp [hp], hm⟩

/-! ### The quoted pattern -/

theorem quotedRe_eq :
    quotedRe = .chr quote :: .notStar quote :: (lits beginMark ++ (.notStar quote ::
      (lits endMark ++ [.notStar quote, .chr quote]))) := by
  rfl

theorem quote_not_mem_beginMark : quote ∉ beginMark := by decide

theorem quote_not_mem_endMark : quote ∉ endMark := by decide

theorem Matches_quotedRe_shape (p : Str) (h : Matches quotedRe p) :
    ∃ w, p = quote :: (w ++ [quote]) ∧ quote ∉ w := by
  rw [quotedRe_eq] at h
  cases h with
  | chr _ _ p1 h1 =>
    cases h1 with
    | star _ a1 _ p2 ha1 h2 =>
      obtain ⟨p3, e3, h3⟩ := Matches_lits_elim _ _ _ h2
      cases h3 with
      | star _ a2 _ p4 ha2 h4 =>
        obtain ⟨p5, e5, h5⟩ := Matches_lits_elim _ _ _ h4
        cases h5 with
        | star _ a3 _ p6 ha3 h6 =>
          cases h6 with
          | chr _ _ p7 h7 =>
            cases h7
            refine ⟨a1 ++ (beginMark ++ (a2 ++ (endMark ++ a3))), ?_, ?_⟩
            · simp [e3, e5]
            · intro hm
              simp only [List.mem_append] at hm
              rcases hm with hm | hm | hm | hm | hm
              · exact ha1 _ hm rfl
              · exact quote_not_mem_beginMark hm
              · exact ha2 _ hm rfl
              · exact quote_not_mem_endMark hm
              · exact ha3 _ hm rfl

theorem Matches_quotedRe_block (body : Str) (hb : quote ∉ body) :
    Matches quotedRe (quote :: ((beginMark ++ body ++ endMark) ++ [quote])) := by
  rw [quotedRe_eq]
  refine Matches.chr quote _ _ ?_
  have h3 : Matches [.notStar quote, .chr quote] [quote] :=
    Matches.star quote [] _ _ (by simp) (Matches.chr quote _ _ Matches.nil)
  have h2 : Matches (.notStar quote :: (lits endMark ++ [.notStar quote, .chr quote]))
      (body ++ (endMark ++ [quote])) :=
    Matches.star quote body _ _ (fun x hx e => hb (e ▸ hx)) (Matches_lits_intro _ _ _ h3)
  have h1 := Matches.star quote [] _ _ (by simp) (Matches_lits_intro beginMark _ _ h2)
  simpa using h1

theorem split_at_first (c : Char) (a b x y : Str) (ha : c ∉ a) (hb : c ∉ b)
    (h : a ++ c :: x = b ++ c :: y) : a = b ∧ x = y := by
  induction a generalizing b with
  | nil =>
    cases b with
    | nil => simpa using h
    | cons z b =>
      simp only [List.nil_append, List.cons_append, List.cons.injEq] at h
      exact absurd (h.1 ▸ List.mem_cons_self _ _) hb
  | cons z a ih =>
    cases b with
    | nil =>
      simp only [List.nil_append, List.cons_append, List.cons.injEq] at h
      exact absurd (h.1 ▸ List.mem_cons_self _ _) ha
    | cons z1 b =>
      simp only [List.cons_append, List.cons.injEq] at h
      obtain ⟨e1, e2⟩ := ih b (fun hm => ha (List.mem_cons_of_mem _ hm))
        (fun hm => hb (List.mem_cons_of_mem _ hm)) h.2
      exact ⟨by rw [h.1, e1], e2⟩

theorem matchItems_quoted_block (content suf : Str) (hq : quote ∉ content)
    (hc : ∃ body, content = beginMark ++ body ++ endMark) :
    matchItems quotedRe (quote :: (content ++ quote :: suf)) = some (content.length + 2) := by
  obtain ⟨body, hbody⟩ := hc
  have hb : quote ∉ body := fun hm => hq (by simp [hbody, hm])
  have hsome := matchItems_complete _ _ (Matches_quotedRe_block body hb) suf
  rw [← hbody] at hsome
  have e0 : quote :: (content ++ [quote]) ++ suf = quote :: (content ++ quote :: suf) := by simp
  rw [e0] at hsome
  cases hn : matchItems quotedRe (quote :: (content ++ quote :: suf)) with
  | none => rw [hn] at hsome; exact absurd hsome (by simp)
  | some n =>
    obtain ⟨p, rest, hs, hl, hm⟩ := matchItems_sound _ _ _ hn
    obtain ⟨w, hp, hw⟩ := Matches_quotedRe_shape p hm
    rw [hp] at hs
    simp only [List.cons_append, List.append_assoc, List.cons.injEq, true_and,
      List.nil_append] at hs
    obtain ⟨e1, _⟩ := split_at_first quote content w _ _ hq hw hs
    rw [← hl, hp, e1]
    simp

/-! ### The scan for quoted matches -/

theorem findAllAux_skip (re : List Item) (a b : Str) :
    findAllAux re a.length (a ++ b) = findAllAux re 0 b := by
  induction a with
  | nil => rfl
  | cons x a ih => simpa [findAllAux] using ih

theorem findAllAux_quoted_noQuote (pre s : Str) (h : quote ∉ pre) :
    findAllAux quotedRe 0 (pre ++ s) = findAllAux quotedRe 0 s := by
  induction pre with
  | nil => rfl
  | cons x pre ih =>
    have hx : ¬ x = quote := fun e => h (by simp [e])
    have hm : matchItems quotedRe (x :: (pre ++ s)) = none := by
      rw [quotedRe_eq]
      simp [matchItems, hx]
    rw [List.cons_append, findAllAux, hm]
    exact ih fun hm => h (List.mem_cons_of_mem _ hm)

theorem findAllAux_quoted_block (content suf : Str) (hq : quote ∉ content)
    (hc : ∃ body, content = beginMark ++ body ++ endMark) :
    findAllAux quotedRe 0 (quote :: (content ++ quote :: suf))
      = (quote :: (content ++ [quote])) :: findAllAux quotedRe 0 suf := by
  have e1 : content ++ quote :: suf = (content ++ [quote]) ++ suf := by simp
  have hs := findAllAux_skip quotedRe (content ++ [quote]) suf
  simp only [List.length_append, List.length_singleton] at hs
  simp only [findAllAux, matchItems_quoted_block content suf hq hc]
  have e2 : content.length + 2 - 1 = content.length + 1 := by omega
  rw [e2, e1, hs]
  congr 1
  rw [← List.cons_append, List.take_left' (by simp)]

theorem FindAllString_quotedInput (pre : Str) (blocks : List (Str × Str)) (hpre : quote ∉ pre)
    (hb : ∀ b ∈ blocks, quote ∉ b.1 ∧ quote ∉ b.2 ∧ ∃ body, b.1 = beginMark ++ body ++ endMark) :
    FindAllString quotedRe (quotedInput pre blocks)
      = blocks.map fun b => quote :: (b.1 ++ [quote]) := by
  unfold FindAllString
  induction blocks generalizing pre with
  | nil =>
    have h := findAllAux_quoted_noQuote pre [] hpre
    simpa [quotedInput, findAllAux] using h
  | cons b bs ih =>
    obtain ⟨h1, h2, h3⟩ := hb b (List.mem_cons_self _ _)
    have ih1 := ih b.2 h2 fun x hx => hb x (List.mem_cons_of_mem _ hx)
    have e : quotedInput pre (b :: bs) = pre ++ quote :: (b.1 ++ quote :: quotedInput b.2 bs) := by
      simp [quotedInput]
    rw [e, findAllAux_quoted_noQuote _ _ hpre, findAllAux_quoted_block _ _ h1 h3, ih1]
    simp

/-! ### Unescaping keeps the opening marker -/

theorem replaceAux_prefix (c : Char) (old new a t : Str) (ha : c ∉ a) :
    replaceAux (c :: old) new 0 (a ++ t) = a ++ replaceAux (c :: old) new 0 t := by
  induction a with
  | nil => rfl
  | cons x a ih =>
    have hx : ¬ c = x := fun e => ha (by simp [e])
    have hp : HasPrefix (x :: (a ++ t)) (c :: old) = false := by
      simp [HasPrefix, List.isPrefixOf, hx]
    rw [List.cons_append, replaceAux, hp]
    simp only [Bool.false_eq_true, if_false, List.cons_append, List.cons.injEq, true_and]
    exact ih fun hm => ha (List.mem_cons_of_mem _ hm)

theorem unescape_beginMark (t : Str) : unescape (beginMark ++ t) = beginMark ++ unescape t := by
  have hb : Char.ofNat 92 ∉ beginMark := by decide
  have e1 : "\\r\\n".toList = Char.ofNat 92 :: "r\\n".toList := by decide
  have e2 : "\\n".toList = Char.ofNat 92 :: "n".toList := by decide
  unfold unescape ReplaceAll
  rw [e1, e2, replaceAux_prefix _ _ _ _ _ hb, replaceAux_prefix _ _ _ _ _ hb]

theorem Contains_append_self (a t : Str) : Contains (a ++ t) a = true := by
  have h : HasPrefix (a ++ t) a = true := by
    unfold HasPrefix
    rw [List.isPrefixOf_iff_prefix]
    exact List.prefix_append a t
  cases hat : a ++ t with
  | nil =>
    have : a = [] := (List.append_eq_nil.mp hat).1
    simp [Contains, this]
  | cons x r =>
    rw [hat] at h
    simp [Contains, h]

theorem builtEvent_block (m content : Str) (hc : ∃ body, content = beginMark ++ body ++ endMark) :
    builtEvent [m, content] = some (buildEvent (unescape content)) := by
  obtain ⟨body, rfl⟩ := hc
  have h : Contains (unescape (beginMark ++ (body ++ endMark))) beginMark = true := by
    rw [unescape_beginMark]
    exact Contains_append_self _ _
  simp [builtEvent, h]

/-- The unquoted scan misses a block whose body holds a capital `E`: a block with
a DTEND line, alone in the input, yields no event. -/
theorem unquoted_block_with_DTEND_dropped :
    pipeline "BEGIN:VEVENT\nSUMMARY:Test\nDTEND:20240615T120000Z\nEND:VEVENT\n".toList [] []
      = [] := by
  decide

/-- C9, refuted: in `mixedInput` the unquoted block `B` begins with
`BEGIN:VEVENT`, ends with `END:VEVENT`, has the line `SUMMARY:B`, and on its own
yields its event under the same range strings; beside the quoted block `A` it
yields none, the output being the event of `A` alone. -/
theorem unquoted_sibling_counterexample :
    pipeline unquotedB [] [] = [titled "B".toList] ∧
    pipeline mixedInput [] [] = [titled "A".toList] := by
  decide

/-- C9, amended. For an input made of one or more single-quoted blocks separated
by text without single quotes, each block free of single quotes, beginning with
`BEGIN:VEVENT` and ending with `END:VEVENT`, the output holds in order exactly one
event for each block whose built title is non-empty and whose dates pass the
range matcher, and no other event. -/
theorem quoted_blocks_emitted_once (pre : Str) (blocks : List (Str × Str))
    (rangeStart rangeEnd : Str) (hpre : quote ∉ pre) (hne : blocks ≠ [])
    (hb : ∀ b ∈ blocks,
      quote ∉ b.1 ∧ quote ∉ b.2 ∧ ∃ body, b.1 = beginMark ++ body ++ endMark) :
    pipeline (quotedInput pre blocks) rangeStart rangeEnd
      = (blocks.map fun b => buildEvent (unescape b.1)).filter (keeps rangeStart rangeEnd) := by
  have hf := FindAllString_quotedInput pre blocks hpre hb
  have hm : extractMatches (quotedInput pre blocks)
      = blocks.map fun b => [quote :: (b.1 ++ [quote]), b.1] := by
    have hs : FindAllStringSubmatch (quotedInput pre blocks)
        = blocks.map fun b => [quote :: (b.1 ++ [quote]), b.1] := by
      unfold FindAllStringSubmatch
      rw [hf, List.map_map]
      apply List.map_congr_left
      intro b _
      simp [List.dropLast_concat]
    unfold extractMatches
    rw [hs]
    have hl : ¬ (blocks.map fun b => [quote :: (b.1 ++ [quote]), b.1]).length = 0 := by
      simpa using hne
    simp only [hl, if_false]
  have hbe : ∀ bs : List (Str × Str),
      (∀ b ∈ bs, ∃ body, b.1 = beginMark ++ body ++ endMark) →
      (bs.map fun b => [quote :: (b.1 ++ [quote]), b.1]).filterMap builtEvent
        = bs.map fun b => buildEvent (unescape b.1) := by
    intro bs
    induction bs with
    | nil => intro _; rfl
    | cons b bs ih =>
      intro h
      rw [List.map_cons, List.filterMap_cons,
        builtEvent_block _ _ (h b (List.mem_cons_self _ _)),
        ih fun x hx => h x (List.mem_cons_of_mem _ hx)]
      rfl
  rw [pipeline_eq_filter]
  unfold builtEvents
  rw [hm, hbe blocks fun b hb1 => (hb b hb1).2.2]

/-- C9 amended, at two quoted blocks `A` and `B` separated by a line feed. -/
theorem quoted_blocks_emitted_once_witness :
    pipeline
      "x'BEGIN:VEVENT\nSUMMARY:A\nEND:VEVENT'\n'BEGIN:VEVENT\nSUMMARY:B\nEND:VEVENT'\n".toList
      [] [] = [titled "A".toList, titled "B".toList] :=
  (quoted_blocks_emitted_once "x".toList
    [("BEGIN:VEVENT\nSUMMARY:A\nEND:VEVENT".toList, "\n".toList),
      ("BEGIN:VEVENT\nSUMMARY:B\nEND:VEVENT".toList, "\n".toList)] [] [] (by decide) (by decide)
    (by
      intro b hb
      simp only [List.mem_cons, List.mem_singleton, List.not_mem_nil, or_false] at hb
      rcases hb with rfl | rfl
      · exact ⟨by decide, by decide, "\nSUMMARY:A\n".toList, by decide⟩
      · exact ⟨by decide, by decide, "\nSUMMARY:B\n".toList, by decide⟩)).trans (by decide)

/-! ### Property lines, key by key -/

theorem applyLine_of_noKey (e : Event) (line : Str) (h : lineKey line = none) :
    applyLine e line = e := by
  unfold lineKey at h
  have hc : Char.ofNat 58 ∉ TrimSpace line := by
    intro hc
    rw [if_pos hc] at h
    exact absurd h (by simp)
  have h1 : ¬ (Contains (TrimSpace line) ":".toList = true) := fun hh =>
    hc ((Contains_singleton (Char.ofNat 58) _).mp hh)
  have h2 : Contains (TrimSpace line) ":".toList = false := by simpa using h1
  unfold applyLine
  simp only [h2, Bool.not_false, if_true]

theorem applyLine_of_key (e : Event) (line key : Str) (h : lineKey line = some key) :
    applyLine e line =
      if key = "UID".toList then { e with ID := lineValue line }
      else if key = summaryKey then { e with Title := lineValue line }
      else if key = "DESCRIPTION".toList then { e with Description := lineValue line }
      else if key = "LOCATION".toList then { e with Location := lineValue line }
      else if HasPrefix key "DTSTART".toList then
        { e with Start := lineValue line,
                 AllDay := Contains (TrimSpace line) ";VALUE=DATE:".toList }
      else if HasPrefix key "DTEND".toList then { e with End := lineValue line }
      else e := by
  unfold lineKey at h
  have hc : Char.ofNat 58 ∈ TrimSpace line := by
    by_contra hc
    rw [if_neg hc] at h
    exact absurd h (by simp)
  rw [if_pos hc] at h
  have hk : ToUpper ((TrimSpace line).takeWhile fun c => c ≠ Char.ofNat 58) = key :=
    Option.some.inj h
  have h1 : Contains (TrimSpace line) ":".toList = true :=
    (Contains_singleton (Char.ofNat 58) _).mpr hc
  unfold applyLine lineValue
  simp only [h1, Bool.not_true, Bool.false_eq_true, if_false, SplitN2_of_mem _ _ hc, hk]

/-- C14. Property-line parsing: a trimmed line without a colon changes no field;
otherwise the upper-cased text before the first colon is the key, and the keys
`UID`, `SUMMARY`, `DESCRIPTION`, `LOCATION` set the id, title, description and
location to the whole text after the first colon; a key that is none of these
and has neither prefix `DTSTART` nor `DTEND` changes no field. -/
theorem property_line_parsing (e : Event) (line : Str) :
    (Char.ofNat 58 ∉ TrimSpace line → applyLine e line = e) ∧
    (lineKey line = some "UID".toList → applyLine e line = { e with ID := lineValue line }) ∧
    (lineKey line = some "SUMMARY".toList →
      applyLine e line = { e with Title := lineValue line }) ∧
    (lineKey line = some "DESCRIPTION".toList →
      applyLine e line = { e with Description := lineValue line }) ∧
    (lineKey line = some "LOCATION".toList →
      applyLine e line = { e with Location := lineValue line }) ∧
    (∀ key, lineKey line = some key → key ≠ "UID".toList → key ≠ "SUMMARY".toList →
      key ≠ "DESCRIPTION".toList → key ≠ "LOCATION".toList →
      HasPrefix key "DTSTART".toList = false → HasPrefix key "DTEND".toList = false →
      applyLine e line = e) := by
  refine ⟨fun h => ?_, fun h => ?_, fun h => ?_, fun h => ?_, fun h => ?_, ?_⟩
  · apply applyLine_of_noKey
    unfold lineKey
    rw [if_neg h]
  · rw [applyLine_of_key e line _ h, if_pos rfl]
  · rw [applyLine_of_key e line _ h, if_neg (by decide), if_pos (by decide)]
  · rw [applyLine_of_key e line _ h, if_neg (by decide), if_neg (by decide), if_pos rfl]
  · rw [applyLine_of_key e line _ h, if_neg (by decide), if_neg (by decide),
      if_neg (by decide), if_pos rfl]
  · intro key h h1 h2 h3 h4 h5 h6
    have h2k : key ≠ summaryKey := h2
    rw [applyLine_of_key e line _ h, if_neg h1, if_neg h2k, if_neg h3, if_neg h4,
      if_neg (by rw [h5]; decide), if_neg (by rw [h6]; decide)]

/-- C14, at the lines `uid:7`, `Uid:7`, `UID:7`, which all set the id, at
`SUMMARY:Meeting: Q3`, whose title keeps the second colon, and at a line without
a colon and a line with an unknown key, which change nothing. -/
theorem property_line_parsing_witness :
    applyLine newEvent "uid:7".toList = { newEvent with ID := "7".toList } ∧
    applyLine newEvent " Uid:7 ".toList = { newEvent with ID := "7".toList } ∧
    applyLine newEvent "UID:7".toList = { newEvent with ID := "7".toList } ∧
    applyLine newEvent "SUMMARY:Meeting: Q3".toList
      = { newEvent with Title := "Meeting: Q3".toList } ∧
    applyLine newEvent "no colon here".toList = newEvent ∧
    applyLine newEvent "STATUS:CONFIRMED".toList = newEvent :=
  ⟨((property_line_parsing newEvent "uid:7".toList).2.1 (by decide)).trans (by decide),
    ((property_line_parsing newEvent " Uid:7 ".toList).2.1 (by decide)).trans (by decide),
    ((property_line_parsing newEvent "UID:7".toList).2.1 (by decide)).trans (by decide),
    ((property_line_parsing newEvent "SUMMARY:Meeting: Q3".toList).2.2.1 (by decide)).trans
      (by decide),
    (property_line_parsing newEvent "no colon here".toList).1 (by decide),
    (property_line_parsing newEvent "STATUS:CONFIRMED".toList).2.2.2.2.2 "STATUS".toList
      (by decide) (by decide) (by decide) (by decide) (by decide) (by decide) (by decide)⟩

theorem applyLine_Start_AllDay (e : Event) (line : Str) (h : isStartLine line = false) :
    (applyLine e line).Start = e.Start ∧ (applyLine e line).AllDay = e.AllDay := by
  unfold isStartLine at h
  cases hk : lineKey line with
  | none => rw [applyLine_of_noKey e line hk]; exact ⟨rfl, rfl⟩
  | some key =>
    rw [hk] at h
    simp only at h
    rw [applyLine_of_key e line key hk]
    split_ifs <;> first | exact ⟨rfl, rfl⟩ | simp_all

theorem foldl_applyLine_Start_AllDay (lines : List Str) (e : Event)
    (h : ∀ l ∈ lines, isStartLine l = false) :
    (lines.foldl applyLine e).Start = e.Start ∧ (lines.foldl applyLine e).AllDay = e.AllDay := by
  induction lines generalizing e with
  | nil => exact ⟨rfl, rfl⟩
  | cons l ls ih =>
    have h1 := ih (applyLine e l) fun x hx => h x (List.mem_cons_of_mem _ hx)
    have h2 := applyLine_Start_AllDay e l (h l (List.mem_cons_self _ _))
    rw [List.foldl_cons]
    exact ⟨h1.1.trans h2.1, h1.2.trans h2.2⟩

theorem applyLine_startLine (e : Event) (line : Str) (h : isStartLine line = true) :
    (applyLine e line).Start = lineValue line ∧
    (applyLine e line).AllDay = Contains (TrimSpace line) ";VALUE=DATE:".toList := by
  unfold isStartLine at h
  cases hk : lineKey line with
  | none => rw [hk] at h; exact absurd h (by simp)
  | some key =>
    rw [hk] at h
    simp only at h
    have n1 : key ≠ "UID".toList := fun e1 => by rw [e1] at h; exact absurd h (by decide)
    have n2 : key ≠ summaryKey := fun e1 => by rw [e1] at h; exact absurd h (by decide)
    have n3 : key ≠ "DESCRIPTION".toList := fun e1 => by
      rw [e1] at h; exact absurd h (by decide)
    have n4 : key ≠ "LOCATION".toList := fun e1 => by rw [e1] at h; exact absurd h (by decide)
    rw [applyLine_of_key e line key hk, if_neg n1, if_neg n2, if_neg n3, if_neg n4, if_pos h]
    exact ⟨rfl, rfl⟩

/-- C13. DTSTART mapping: when `L` is the only line of a block whose upper-cased
key starts with `DTSTART`, the built event's start is the text of the trimmed `L`
after its first colon and its all-day flag is true exactly when the trimmed `L`
contains `;VALUE=DATE:`. -/
theorem dtstart_mapping (icalData : Str) (before after : List Str) (L : Str)
    (hsplit : Split (Char.ofNat 10) icalData = before ++ L :: after)
    (hL : isStartLine L = true)
    (hothers : ∀ l ∈ before ++ after, isStartLine l = false) :
    (buildEvent icalData).Start = lineValue L ∧
    ((buildEvent icalData).AllDay = true ↔
      Contains (TrimSpace L) ";VALUE=DATE:".toList = true) := by
  have hb : ∀ l ∈ before, isStartLine l = false := fun l hl =>
    hothers l (List.mem_append_left _ hl)
  have ha : ∀ l ∈ after, isStartLine l = false := fun l hl =>
    hothers l (List.mem_append_right _ hl)
  unfold buildEvent
  rw [hsplit, List.foldl_append, List.foldl_cons]
  have h1 := foldl_applyLine_Start_AllDay after (applyLine (before.foldl applyLine newEvent) L) ha
  have h2 := applyLine_startLine (before.foldl applyLine newEvent) L hL
  rw [h1.1, h1.2, h2.1, h2.2]
  exact ⟨rfl, Iff.rfl⟩

/-- C13, at two blocks with the same 8-character start value: the line
`DTSTART:20240615` gives the all-day flag false, the line
`DTSTART;VALUE=DATE:20240615` gives it true, and the start is `20240615` in
both. -/
theorem dtstart_mapping_witness :
    ((buildEvent "BEGIN:VEVENT\nDTSTART:20240615\nEND:VEVENT".toList).Start
        = "20240615".toList ∧
      (buildEvent "BEGIN:VEVENT\nDTSTART:20240615\nEND:VEVENT".toList).AllDay = false) ∧
    ((buildEvent "BEGIN:VEVENT\nDTSTART;VALUE=DATE:20240615\nEND:VEVENT".toList).Start
        = "20240615".toList ∧
      (buildEvent "BEGIN:VEVENT\nDTSTART;VALUE=DATE:20240615\nEND:VEVENT".toList).AllDay
        = true) := by
  have h1 := dtstart_mapping "BEGIN:VEVENT\nDTSTART:20240615\nEND:VEVENT".toList
    ["BEGIN:VEVENT".toList] ["END:VEVENT".toList] "DTSTART:20240615".toList
    (by decide) (by decide) (by decide)
  have h2 := dtstart_mapping "BEGIN:VEVENT\nDTSTART;VALUE=DATE:20240615\nEND:VEVENT".toList
    ["BEGIN:VEVENT".toList] ["END:VEVENT".toList] "DTSTART;VALUE=DATE:20240615".toList
    (by decide) (by decide) (by decide)
  refine ⟨⟨h1.1.trans (by decide), ?_⟩, ⟨h2.1.trans (by decide), h2.2.mpr (by decide)⟩⟩
  cases hb : (buildEvent "BEGIN:VEVENT\nDTSTART:20240615\nEND:VEVENT".toList).AllDay
  · rfl
  · exact absurd (h1.2.mp hb) (by decide)

/-! ### The scan, for any pattern -/

theorem findAllAux_mem (re : List Item) (s : Str) (skip : Nat) (b : Str)
    (h : b ∈ findAllAux re skip s) :
    ∃ pre t n, s = pre ++ t ∧ matchItems re t = some n ∧ b = t.take n := by
  induction s generalizing skip with
  | nil => simp [findAllAux] at h
  | cons c t ih =>
    cases skip with
    | succ k =>
      rw [findAllAux] at h
      obtain ⟨pre, t1, n, hs, hm, hb⟩ := ih k h
      exact ⟨c :: pre, t1, n, by simp [hs], hm, hb⟩
    | zero =>
      rw [findAllAux] at h
      cases hm : matchItems re (c :: t) with
      | none =>
        rw [hm] at h
        obtain ⟨pre, t1, n, hs, hm1, hb⟩ := ih 0 h
        exact ⟨c :: pre, t1, n, by simp [hs], hm1, hb⟩
      | some n =>
        rw [hm] at h
        rcases List.mem_cons.mp h with h1 | h1
        · exact ⟨[], c :: t, n, rfl, hm, h1⟩
        · obtain ⟨pre, t1, n1, hs, hm1, hb⟩ := ih (n - 1) h1
          exact ⟨c :: pre, t1, n1, by simp [hs], hm1, hb⟩

theorem findAllAux_ne_nil (re : List Item) (pre t : Str) (ht : t ≠ [])
    (hm : (matchItems re t).isSome = true) : findAllAux re 0 (pre ++ t) ≠ [] := by
  induction pre with
  | nil =>
    cases t with
    | nil => exact absurd rfl ht
    | cons c t1 =>
      rw [List.nil_append, findAllAux]
      cases hn : matchItems re (c :: t1) with
      | none => rw [hn] at hm; exact absurd hm (by simp)
      | some n => simp
  | cons x pre ih =>
    rw [List.cons_append, findAllAux]
    cases hn : matchItems re (x :: (pre ++ t)) with
    | none => exact ih
    | some n => simp

theorem FindAllString_mem_Matches (re : List Item) (input b : Str)
    (h : b ∈ FindAllString re input) :
    Matches re b ∧ ∃ pre suf, input = pre ++ b ++ suf := by
  obtain ⟨pre, t, n, hs, hm, hb⟩ := findAllAux_mem re input 0 b h
  obtain ⟨p, rest, ht, hl, hp⟩ := matchItems_sound re t n hm
  have e : b = p := by
    rw [hb, ht, ← hl, List.take_left]
  rw [e]
  exact ⟨hp, pre, rest, by rw [hs, ht, List.append_assoc]⟩

theorem quoted_exists_iff (input : Str) :
    QuotedMatchExists input ↔ FindAllString quotedRe input ≠ [] := by
  constructor
  · rintro ⟨pre, p, suf, hs, hm⟩
    obtain ⟨w, hp, _⟩ := Matches_quotedRe_shape p hm
    have h := findAllAux_ne_nil quotedRe pre (p ++ suf) (by simp [hp])
      (matchItems_complete _ _ hm suf)
    unfold FindAllString
    rw [hs, List.append_assoc]
    exact h
  · intro h
    cases hl : FindAllString quotedRe input with
    | nil => exact absurd hl h
    | cons b bs =>
      obtain ⟨hm, pre, suf, hs⟩ := FindAllString_mem_Matches quotedRe input b
        (by rw [hl]; exact List.mem_cons_self _ _)
      exact ⟨pre, b, suf, hs, hm⟩

/-- C16. The primary strategy shadows the fallback: when the quoted pattern
matches somewhere in the input, the extracted blocks are exactly the quoted
matches in order, each the text between two single quotes, and the output is
built from them alone; the unquoted matches are the extracted blocks only when
the quoted pattern matches nowhere. -/
theorem primary_shadows_fallback (input rangeStart rangeEnd : Str) :
    (QuotedMatchExists input →
      extractMatches input = FindAllStringSubmatch input ∧
      (∀ m ∈ extractMatches input, ∃ g, m = [quote :: (g ++ [quote]), g] ∧ quote ∉ g ∧
        Matches quotedRe (quote :: (g ++ [quote]))) ∧
      pipeline input rangeStart rangeEnd
        = ((FindAllStringSubmatch input).filterMap builtEvent).filter
            (keeps rangeStart rangeEnd)) ∧
    (¬ QuotedMatchExists input →
      extractMatches input = (FindAllString unquotedRe input).map fun m => [m, m]) := by
  constructor
  · intro hq
    have hne := (quoted_exists_iff input).mp hq
    have hl : ¬ (FindAllStringSubmatch input).length = 0 := by
      unfold FindAllStringSubmatch
      simpa using hne
    have he : extractMatches input = FindAllStringSubmatch input := by
      unfold extractMatches
      simp only [hl, if_false]
    refine ⟨he, ?_, ?_⟩
    · intro m hm
      rw [he] at hm
      unfold FindAllStringSubmatch at hm
      obtain ⟨b, hb, rfl⟩ := List.mem_map.mp hm
      obtain ⟨hmb, _⟩ := FindAllString_mem_Matches quotedRe input b hb
      obtain ⟨w, hp, hw⟩ := Matches_quotedRe_shape b hmb
      refine ⟨w, ?_, hw, hp ▸ hmb⟩
      rw [hp]
      simp [List.dropLast_concat]
    · rw [pipeline_eq_filter]
      unfold builtEvents
      rw [he]
  · intro hq
    have hnil : FindAllString quotedRe input = [] := by
      by_contra hne
      exact hq ((quoted_exists_iff input).mpr hne)
    unfold extractMatches FindAllStringSubmatch
    simp [hnil]

/-- C16, at `mixedInput`: the quoted block `A` is the only extracted block, the
unquoted block `B` after it is not extracted. -/
theorem primary_shadows_fallback_witness :
    extractMatches mixedInput
      = [["'BEGIN:VEVENT\nSUMMARY:A\nEND:VEVENT'".toList,
          "BEGIN:VEVENT\nSUMMARY:A\nEND:VEVENT".toList]] :=
  ((primary_shadows_fallback mixedInput [] []).1
    ⟨[], quote :: ((beginMark ++ "\nSUMMARY:A\n".toList ++ endMark) ++ [quote]),
      "\nBEGIN:VEVENT\nSUMMARY:B\nEND:VEVENT\n".toList, by decide,
      Matches_quotedRe_block "\nSUMMARY:A\n".toList (by decide)⟩).1.trans (by decide)

/-! ### The range matcher, continued -/

/-- C18. All-day events ignore their end: for an event start of length 8 the
result of `isInDateRange` is the same for every two end tokens. -/
theorem allDay_ignores_end (eventStart e1 e2 rangeStart rangeEnd : Str)
    (h : len eventStart = 8) :
    isInDateRange eventStart e1 rangeStart rangeEnd
      = isInDateRange eventStart e2 rangeStart rangeEnd := by
  unfold isInDateRange
  simp only [h, if_true]

/-- C18, at the all-day event that starts on 2024-06-10 and ends on 2024-06-20:
for the range 2024-06-15..2024-06-16 the result is that of the same start without
an end, which is false. -/
theorem allDay_ignores_end_witness :
    isInDateRange "20240610".toList "20240620".toList "2024-06-15".toList "2024-06-16".toList
      = false :=
  (allDay_ignores_end "20240610".toList "20240620".toList [] "2024-06-15".toList
    "2024-06-16".toList (by decide)).trans (by decide)

/-- C19. Widening the range never drops an event: with parseable range strings,
a start not after the first range's start and an end not before the first range's
end, an event the first range includes is included by the wider range. -/
theorem widening_range (eventStart eventEnd rangeStart rangeEnd rangeStart1 rangeEnd1 : Str)
    (startDate endDate startDate1 endDate1 : Time)
    (hs : timeParse layoutISO rangeStart = some startDate)
    (he : timeParse layoutISO rangeEnd = some endDate)
    (hs1 : timeParse layoutISO rangeStart1 = some startDate1)
    (he1 : timeParse layoutISO rangeEnd1 = some endDate1)
    (hle1 : startDate1 ≤ startDate) (hle2 : endDate ≤ endDate1)
    (h : isInDateRange eventStart eventEnd rangeStart rangeEnd = true) :
    isInDateRange eventStart eventEnd rangeStart1 rangeEnd1 = true := by
  unfold isInDateRange at h ⊢
  rw [hs, he] at h
  rw [hs1, he1]
  cases hp : parseDate eventStart with
  | none => rfl
  | some evtStart =>
    rw [hp] at h
    simp only at h ⊢
    by_cases hl : len eventStart = 8
    · rw [if_pos hl] at h ⊢
      simp only [Before, After, AddDate001, Bool.and_eq_true, Bool.not_eq_true',
        decide_eq_false_iff_not, not_lt, gt_iff_lt] at h ⊢
      exact ⟨Nat.le_trans hle1 h.1, Nat.le_trans h.2 (Nat.add_le_add_right hle2 _)⟩
    · rw [if_neg hl] at h ⊢
      simp only [Before, After, Bool.and_eq_true, Bool.not_eq_true',
        decide_eq_false_iff_not, not_lt, gt_iff_lt] at h ⊢
      exact ⟨Nat.le_trans h.1 hle2, Nat.le_trans hle1 h.2⟩

/-- C19, at the timed event of 2024-06-10 09:00: included by the range
2024-06-05..2024-06-12, hence by the wider range 2024-06-01..2024-06-30. -/
theorem widening_range_witness :
    isInDateRange "20240610T090000Z".toList "20240610T093000Z".toList "2024-06-01".toList
      "2024-06-30".toList = true :=
  widening_range "20240610T090000Z".toList "20240610T093000Z".toList "2024-06-05".toList
    "2024-06-12".toList "2024-06-01".toList "2024-06-30".toList (midnight 2024 6 5)
    (midnight 2024 6 12) (midnight 2024 6 1) (midnight 2024 6 30) (by decide) (by decide)
    (by decide) (by decide) (by decide) (by decide) (by decide)

/-! ### Unescaping a block of lines -/

theorem unescape_eq (s : Str) :
    unescape s = ReplaceAll (ReplaceAll s escCRLF lineFeed) escLF lineFeed := rfl

theorem replaceAux_skip (old new a b : Str) :
    replaceAux old new a.length (a ++ b) = replaceAux old new 0 b := by
  induction a with
  | nil => rfl
  | cons x a ih => simpa [replaceAux] using ih

theorem replaceAux_at (c : Char) (old new t : Str) :
    replaceAux (c :: old) new 0 ((c :: old) ++ t) = new ++ replaceAux (c :: old) new 0 t := by
  have hp : HasPrefix (c :: (old ++ t)) (c :: old) = true := by
    unfold HasPrefix
    rw [List.isPrefixOf_iff_prefix, ← List.cons_append]
    exact List.prefix_append _ _
  rw [List.cons_append, replaceAux, if_pos hp]
  simp only [List.length_cons, Nat.add_sub_cancel]
  rw [replaceAux_skip]

theorem replaceAux_noop (c : Char) (old new s : Str) (h : c ∉ s) :
    replaceAux (c :: old) new 0 s = s := by
  have h1 := replaceAux_prefix c old new s [] h
  simpa [replaceAux] using h1

theorem backslash_not_mem_joinLines (lines : List Str) (h : ∀ l ∈ lines, backslash ∉ l) :
    backslash ∉ joinLines lineFeed lines := by
  induction lines with
  | nil => simp [joinLines]
  | cons l ls ih =>
    cases ls with
    | nil => simpa [joinLines] using h l (List.mem_cons_self _ _)
    | cons l2 ls1 =>
      have h1 := ih fun x hx => h x (List.mem_cons_of_mem _ hx)
      have h0 := h l (List.mem_cons_self _ _)
      have hn : backslash ∉ lineFeed := by decide
      simp only [joinLines, List.mem_append, not_or]
      exact ⟨⟨h0, hn⟩, h1⟩

theorem replace_escCRLF_join (lines : List Str) (h : ∀ l ∈ lines, backslash ∉ l) :
    ReplaceAll (joinLines escCRLF lines) escCRLF lineFeed = joinLines lineFeed lines := by
  unfold ReplaceAll
  induction lines with
  | nil => rfl
  | cons l ls ih =>
    have h0 := h l (List.mem_cons_self _ _)
    cases ls with
    | nil => exact replaceAux_noop backslash _ _ l h0
    | cons l2 ls1 =>
      have h1 := ih fun x hx => h x (List.mem_cons_of_mem _ hx)
      have e : escCRLF = backslash :: [Char.ofNat 114, backslash, Char.ofNat 110] := rfl
      simp only [joinLines, List.append_assoc]
      rw [e, replaceAux_prefix _ _ _ _ _ h0, replaceAux_at, ← e, h1]

theorem replace_escLF_join (lines : List Str) (h : ∀ l ∈ lines, backslash ∉ l) :
    ReplaceAll (joinLines escLF lines) escLF lineFeed = joinLines lineFeed lines := by
  unfold ReplaceAll
  induction lines with
  | nil => rfl
  | cons l ls ih =>
    have h0 := h l (List.mem_cons_self _ _)
    cases ls with
    | nil => exact replaceAux_noop backslash _ _ l h0
    | cons l2 ls1 =>
      have h1 := ih fun x hx => h x (List.mem_cons_of_mem _ hx)
      have e : escLF = backslash :: [Char.ofNat 110] := rfl
      simp only [joinLines, List.append_assoc]
      rw [e, replaceAux_prefix _ _ _ _ _ h0, replaceAux_at, ← e, h1]

theorem replace_escCRLF_escLF (t : Str) :
    replaceAux escCRLF lineFeed 0 (escLF ++ t)
      = escLF ++ replaceAux escCRLF lineFeed 0 t := by
  have hp : HasPrefix (backslash :: Char.ofNat 110 :: t) escCRLF = false := by
    have hne : (Char.ofNat 114 == Char.ofNat 110) = false := by decide
    simp [HasPrefix, escCRLF, List.isPrefixOf, hne]
  have hq : HasPrefix (Char.ofNat 110 :: t) escCRLF = false := by
    have hne : (backslash == Char.ofNat 110) = false := by decide
    simp [HasPrefix, escCRLF, List.isPrefixOf, hne]
  show replaceAux escCRLF lineFeed 0 (backslash :: Char.ofNat 110 :: t) = _
  rw [replaceAux, hp]
  simp only [Bool.false_eq_true, if_false]
  rw [replaceAux, hq]
  simp only [Bool.false_eq_true, if_false]
  rfl

theorem replace_escCRLF_joinLF (lines : List Str) (h : ∀ l ∈ lines, backslash ∉ l) :
    ReplaceAll (joinLines escLF lines) escCRLF lineFeed = joinLines escLF lines := by
  unfold ReplaceAll
  induction lines with
  | nil => rfl
  | cons l ls ih =>
    have h0 := h l (List.mem_cons_self _ _)
    cases ls with
    | nil => exact replaceAux_noop backslash _ _ l h0
    | cons l2 ls1 =>
      have h1 := ih fun x hx => h x (List.mem_cons_of_mem _ hx)
      have e : escCRLF = backslash :: [Char.ofNat 114, backslash, Char.ofNat 110] := rfl
      simp only [joinLines, List.append_assoc]
      rw [e, replaceAux_prefix _ _ _ _ _ h0, ← e, replace_escCRLF_escLF, h1]

theorem unescape_joinLines (lines : List Str) (h : ∀ l ∈ lines, backslash ∉ l) :
    unescape (joinLines escCRLF lines) = joinLines lineFeed lines ∧
    unescape (joinLines escLF lines) = joinLines lineFeed lines ∧
    unescape (joinLines lineFeed lines) = joinLines lineFeed lines := by
  have hb := backslash_not_mem_joinLines lines h
  have hno1 : ReplaceAll (joinLines lineFeed lines) escCRLF lineFeed = joinLines lineFeed lines :=
    replaceAux_noop backslash _ _ _ hb
  have hno2 : ReplaceAll (joinLines lineFeed lines) escLF lineFeed = joinLines lineFeed lines :=
    replaceAux_noop backslash _ _ _ hb
  refine ⟨?_, ?_, ?_⟩
  · rw [unescape_eq, replace_escCRLF_join lines h, hno2]
  · rw [unescape_eq, replace_escCRLF_joinLF lines h, replace_escLF_join lines h]
  · rw [unescape_eq, hno1, hno2]

/-- C12. Escaping equivalence: for property lines without a backslash, the event
built from the block whose lines are separated by the four characters backslash,
r, backslash, n, and the event built from the block whose lines are separated by
the two characters backslash, n, both equal the event built from the block whose
lines are separated by line feeds. -/
theorem escaping_equivalence (lines : List Str) (h : ∀ l ∈ lines, backslash ∉ l) :
    buildEvent (unescape (joinLines escCRLF lines))
      = buildEvent (unescape (joinLines lineFeed lines)) ∧
    buildEvent (unescape (joinLines escLF lines))
      = buildEvent (unescape (joinLines lineFeed lines)) := by
  obtain ⟨h1, h2, h3⟩ := unescape_joinLines lines h
  rw [h1, h2, h3]
  exact ⟨rfl, rfl⟩

/-- C12, at the lines of the Standup block. -/
theorem escaping_equivalence_witness :
    buildEvent (unescape
      "BEGIN:VEVENT\\r\\nUID:1\\r\\nSUMMARY:Standup\\r\\nEND:VEVENT".toList)
      = buildEvent (unescape "BEGIN:VEVENT\nUID:1\nSUMMARY:Standup\nEND:VEVENT".toList) ∧
    buildEvent (unescape "BEGIN:VEVENT\\nUID:1\\nSUMMARY:Standup\\nEND:VEVENT".toList)
      = buildEvent (unescape "BEGIN:VEVENT\nUID:1\nSUMMARY:Standup\nEND:VEVENT".toList) :=
  escaping_equivalence
    ["BEGIN:VEVENT".toList, "UID:1".toList, "SUMMARY:Standup".toList, "END:VEVENT".toList]
    (by decide)

/-! ### The unquoted pattern -/

theorem unquotedRe_eq :
    unquotedRe = lits beginMark ++ (.notStar capE :: (lits endMark ++ [])) := by
  rfl

theorem Matches_unquotedRe_shape (p : Str) (h : Matches unquotedRe p) :
    ∃ a, p = beginMark ++ (a ++ endMark) ∧ capE ∉ a := by
  rw [unquotedRe_eq] at h
  obtain ⟨p1, e1, h1⟩ := Matches_lits_elim _ _ _ h
  cases h1 with
  | star _ a _ p2 ha h2 =>
    obtain ⟨p3, e3, h3⟩ := Matches_lits_elim _ _ _ h2
    cases h3
    refine ⟨a, by simp [e1, e3], fun hm => ha _ hm rfl⟩

theorem Matches_unquotedRe_block (a : Str) (ha : capE ∉ a) :
    Matches unquotedRe (beginMark ++ (a ++ endMark)) := by
  rw [unquotedRe_eq]
  have h3 : Matches (lits endMark ++ []) (endMark ++ []) :=
    Matches_lits_intro endMark [] [] Matches.nil
  have h2 : Matches (.notStar capE :: (lits endMark ++ [])) (a ++ (endMark ++ [])) :=
    Matches.star capE a _ _ (fun x hx e => ha (e ▸ hx)) h3
  have h1 := Matches_lits_intro beginMark _ _ h2
  simpa using h1

theorem endMark_eq_cons : endMark = capE :: "ND:VEVENT".toList := by decide

theorem beginMark_eq_cons : beginMark = Char.ofNat 66 :: "EGIN:VEVENT".toList := by decide

theorem matchItems_unquoted_block (a suf : Str) (ha : capE ∉ a) :
    matchItems unquotedRe (beginMark ++ (a ++ endMark) ++ suf) = some (a.length + 22) := by
  have hsome := matchItems_complete _ _ (Matches_unquotedRe_block a ha) suf
  cases hn : matchItems unquotedRe (beginMark ++ (a ++ endMark) ++ suf) with
  | none => rw [hn] at hsome; exact absurd hsome (by simp)
  | some n =>
    obtain ⟨p, rest, hs, hl, hm⟩ := matchItems_sound _ _ _ hn
    obtain ⟨a1, hp, ha1⟩ := Matches_unquotedRe_shape p hm
    rw [hp] at hs
    simp only [List.append_assoc, List.append_cancel_left_eq] at hs
    rw [endMark_eq_cons] at hs
    simp only [List.cons_append] at hs
    obtain ⟨e1, _⟩ := split_at_first capE a a1 _ _ ha ha1 hs
    have hb : beginMark.length = 12 := by decide
    have he : endMark.length = 10 := by decide
    have hn2 : n = a.length + 22 := by
      rw [← hl, hp, ← e1]
      simp only [List.length_append, hb, he]
      omega
    rw [hn2]

theorem findAllAux_unquoted_block (a suf : Str) (ha : capE ∉ a) :
    findAllAux unquotedRe 0 (beginMark ++ (a ++ endMark) ++ suf)
      = (beginMark ++ (a ++ endMark)) :: findAllAux unquotedRe 0 suf := by
  have hm := matchItems_unquoted_block a suf ha
  have hlen : (beginMark ++ (a ++ endMark)).length = a.length + 22 := by
    have hb : beginMark.length = 12 := by decide
    have he : endMark.length = 10 := by decide
    simp only [List.length_append, hb, he]
    omega
  have hs := findAllAux_skip unquotedRe ("EGIN:VEVENT".toList ++ (a ++ endMark)) suf
  have hl2 : ("EGIN:VEVENT".toList ++ (a ++ endMark)).length = a.length + 22 - 1 := by
    have he : endMark.length = 10 := by decide
    have hb : "EGIN:VEVENT".toList.length = 11 := by decide
    simp only [List.length_append, hb, he]
    omega
  have e0 : beginMark ++ (a ++ endMark) ++ suf
      = Char.ofNat 66 :: ("EGIN:VEVENT".toList ++ (a ++ endMark) ++ suf) := by
    rw [beginMark_eq_cons]
    simp
  rw [e0] at hm ⊢
  rw [findAllAux, hm]
  simp only
  rw [← hl2, hs]
  congr 1
  rw [← e0, ← hlen, List.take_left]

theorem Contains_of_suffix (sub pre t : Str) (ht : t ≠ []) (h : HasPrefix t sub = true) :
    Contains (pre ++ t) sub = true := by
  induction pre with
  | nil =>
    cases t with
    | nil => exact absurd rfl ht
    | cons c t1 => simp [Contains, h]
  | cons x pre ih => simp [Contains, ih]

theorem HasPrefix_of_Matches_unquoted (t : Str) (n : Nat)
    (h : matchItems unquotedRe t = some n) : HasPrefix t beginMark = true ∧ t ≠ [] := by
  obtain ⟨p, rest, hs, _, hm⟩ := matchItems_sound _ _ _ h
  obtain ⟨a, hp, _⟩ := Matches_unquotedRe_shape p hm
  constructor
  · unfold HasPrefix
    rw [List.isPrefixOf_iff_prefix, hs, hp, List.append_assoc]
    exact List.prefix_append _ _
  · rw [hs, hp, beginMark_eq_cons]
    simp

theorem findAllAux_unquoted_none (s : Str) (h : Contains s beginMark = false) :
    findAllAux unquotedRe 0 s = [] := by
  cases hf : findAllAux unquotedRe 0 s with
  | nil => rfl
  | cons b bs =>
    obtain ⟨pre, t, n, hs, hm, _⟩ := findAllAux_mem unquotedRe s 0 b
      (by rw [hf]; exact List.mem_cons_self _ _)
    obtain ⟨hp, ht⟩ := HasPrefix_of_Matches_unquoted t n hm
    have hc := Contains_of_suffix beginMark pre t ht hp
    rw [← hs, h] at hc
    exact absurd hc (by simp)

theorem HasPrefix_beginMark_cut (x : Char) (a s : Str)
    (h : HasPrefix (x :: a ++ Char.ofNat 66 :: s) beginMark = true) :
    HasPrefix (x :: a) beginMark = true := by
  unfold HasPrefix at h ⊢
  rw [List.isPrefixOf_iff_prefix] at h ⊢
  have h2 : (x :: a) <+: (x :: a ++ Char.ofNat 66 :: s) := List.prefix_append _ _
  rcases List.prefix_or_prefix_of_prefix h h2 with h3 | h3
  · exact h3
  · obtain ⟨l1, hl1⟩ := h3
    rw [← hl1] at h
    have h4 : l1 <+: Char.ofNat 66 :: s := (List.prefix_append_right_inj _).mp h
    cases l1 with
    | nil =>
      rw [List.append_nil] at hl1
      rw [hl1]
    | cons y l2 =>
      obtain ⟨r, hr⟩ := h4
      simp only [List.cons_append, List.cons.injEq] at hr
      have hmem : Char.ofNat 66 ∈ beginMark.tail := by
        rw [← hl1, ← hr.1]
        simp
      exact absurd hmem (by decide)

theorem findAllAux_unquoted_skip_pre (pre s : Str) (h : Contains pre beginMark = false) :
    findAllAux unquotedRe 0 (pre ++ Char.ofNat 66 :: s)
      = findAllAux unquotedRe 0 (Char.ofNat 66 :: s) := by
  induction pre with
  | nil => rfl
  | cons x pre ih =>
    have hc : HasPrefix (x :: pre) beginMark = false ∧ Contains pre beginMark = false := by
      simpa [Contains] using h
    have hm : matchItems unquotedRe (x :: pre ++ Char.ofNat 66 :: s) = none := by
      cases hn : matchItems unquotedRe (x :: pre ++ Char.ofNat 66 :: s) with
      | none => rfl
      | some n =>
        have h1 := (HasPrefix_of_Matches_unquoted _ n hn).1
        have h2 := HasPrefix_beginMark_cut x pre s h1
        rw [hc.1] at h2
        exact absurd h2 (by simp)
    rw [List.cons_append] at hm ⊢
    rw [findAllAux, hm]
    exact ih hc.2

theorem FindAllString_unquoted_single (pre a suf : Str) (ha : capE ∉ a)
    (hpre : Contains pre beginMark = false) (hsuf : Contains suf beginMark = false) :
    FindAllString unquotedRe (pre ++ (beginMark ++ (a ++ endMark)) ++ suf)
      = [beginMark ++ (a ++ endMark)] := by
  unfold FindAllString
  have e : pre ++ (beginMark ++ (a ++ endMark)) ++ suf
      = pre ++ Char.ofNat 66 :: ("EGIN:VEVENT".toList ++ (a ++ endMark) ++ suf) := by
    rw [beginMark_eq_cons]
    simp
  have e2 : Char.ofNat 66 :: ("EGIN:VEVENT".toList ++ (a ++ endMark) ++ suf)
      = beginMark ++ (a ++ endMark) ++ suf := by
    rw [beginMark_eq_cons]
    simp
  rw [e, findAllAux_unquoted_skip_pre _ _ hpre, e2, findAllAux_unquoted_block a suf ha,
    findAllAux_unquoted_none suf hsuf]

theorem FindAllString_quoted_noQuote (s : Str) (h : quote ∉ s) :
    FindAllString quotedRe s = [] := by
  have h1 := findAllAux_quoted_noQuote s [] h
  unfold FindAllString
  rw [List.append_nil] at h1
  rw [h1]
  rfl

theorem isInDateRange_badStart (es ee rs re : Str) (h : parseDate es = none) :
    isInDateRange es ee rs re = true := by
  unfold isInDateRange
  rw [h]
  cases timeParse layoutISO rs <;> cases timeParse layoutISO re <;> rfl

theorem extractMatches_unquoted_single (pre a suf : Str) (ha : capE ∉ a)
    (hq : quote ∉ pre ++ (beginMark ++ (a ++ endMark)) ++ suf)
    (hpre : Contains pre beginMark = false) (hsuf : Contains suf beginMark = false) :
    extractMatches (pre ++ (beginMark ++ (a ++ endMark)) ++ suf)
      = [[beginMark ++ (a ++ endMark), beginMark ++ (a ++ endMark)]] := by
  unfold extractMatches FindAllStringSubmatch
  rw [FindAllString_quoted_noQuote _ hq, FindAllString_unquoted_single pre a suf ha hpre hsuf]
  rfl

/-- C11. Fallback extraction: for an input without single quotes that holds the
unquoted block of the lines `BEGIN:VEVENT`, `SUMMARY:Test`, `END:VEVENT`,
separated by line feeds or by carriage return and line feed, and no other
`BEGIN:VEVENT`, the pipeline yields exactly one event, titled `Test`, for every
range. -/
theorem fallback_extraction (pre suf nl rangeStart rangeEnd : Str)
    (hnl : nl = "\n".toList ∨ nl = "\r\n".toList)
    (hq1 : quote ∉ pre) (hq2 : quote ∉ suf)
    (hb1 : Contains pre beginMark = false) (hb2 : Contains suf beginMark = false) :
    pipeline (pre ++ testBlock nl ++ suf) rangeStart rangeEnd = [titled "Test".toList] := by
  have hk : keeps rangeStart rangeEnd (titled "Test".toList) = true := by
    have h1 : isInDateRange (titled "Test".toList).Start (titled "Test".toList).End
        rangeStart rangeEnd = true := isInDateRange_badStart _ _ _ _ (by decide)
    have h2 : (titled "Test".toList).Title ≠ [] := by decide
    unfold keeps
    rw [h1, decide_eq_true h2]
    rfl
  have main : ∀ a : Str, capE ∉ a → quote ∉ a →
      builtEvent [beginMark ++ (a ++ endMark), beginMark ++ (a ++ endMark)]
        = some (titled "Test".toList) →
      pipeline (pre ++ (beginMark ++ (a ++ endMark)) ++ suf) rangeStart rangeEnd
        = [titled "Test".toList] := by
    intro a ha hqa hbuilt
    have hq : quote ∉ pre ++ (beginMark ++ (a ++ endMark)) ++ suf := by
      simp only [List.mem_append, not_or]
      exact ⟨⟨hq1, quote_not_mem_beginMark, hqa, quote_not_mem_endMark⟩, hq2⟩
    rw [pipeline_eq_filter]
    unfold builtEvents
    rw [extractMatches_unquoted_single pre a suf ha hq hb1 hb2]
    simp only [List.filterMap_cons, hbuilt, List.filterMap_nil, List.filter_cons, hk, if_true,
      List.filter_nil]
  rcases hnl with rfl | rfl
  · have e : testBlock "\n".toList
        = beginMark ++ ("\nSUMMARY:Test\n".toList ++ endMark) := by decide
    rw [e]
    exact main _ (by decide) (by decide) (by decide)
  · have e : testBlock "\r\n".toList
        = beginMark ++ ("\r\nSUMMARY:Test\r\n".toList ++ endMark) := by decide
    rw [e]
    exact main _ (by decide) (by decide) (by decide)

/-- C11, at the block alone followed by a line feed, with unparseable range
strings, and at the block inside other text, with a range of another year. -/
theorem fallback_extraction_witness :
    pipeline "BEGIN:VEVENT\nSUMMARY:Test\nEND:VEVENT\n".toList "not-a-date".toList []
      = [titled "Test".toList] ∧
    pipeline "string BEGIN:VEVENT\r\nSUMMARY:Test\r\nEND:VEVENT, uint32 0".toList
      "1999-01-01".toList "1999-12-31".toList = [titled "Test".toList] :=
  ⟨fallback_extraction [] "\n".toList "\n".toList "not-a-date".toList [] (Or.inl rfl)
      (by decide) (by decide) (by decide) (by decide),
    fallback_extraction "string ".toList ", uint32 0".toList "\r\n".toList
      "1999-01-01".toList "1999-12-31".toList (Or.inr rfl) (by decide) (by decide) (by decide)
      (by decide)⟩

/-! ### Occurrences inside an unquoted match -/

theorem HasPrefix_clash (l sub r : Str) (h : clash l sub = true) :
    HasPrefix (l ++ r) sub = false := by
  induction l generalizing sub with
  | nil => simp [clash] at h
  | cons x l ih =>
    cases sub with
    | nil => simp [clash] at h
    | cons y s =>
      simp only [clash, Bool.or_eq_true, bne_iff_ne, ne_eq] at h
      by_cases hxy : y = x
      · have h1 : clash l s = true := by
          rcases h with h | h
          · exact absurd hxy.symm h
          · exact h
        have h2 := ih s h1
        unfold HasPrefix at h2 ⊢
        simp [List.isPrefixOf, hxy, h2]
      · unfold HasPrefix
        simp [List.isPrefixOf, hxy]

theorem countOcc_clashAll (sub l r : Str) (h : clashAll sub l = true) :
    countOcc sub (l ++ r) = countOcc sub r := by
  induction l with
  | nil => rfl
  | cons x l ih =>
    simp only [clashAll, Bool.and_eq_true] at h
    have h1 := HasPrefix_clash (x :: l) sub r h.1
    rw [List.cons_append] at h1 ⊢
    rw [countOcc, h1, ih h.2]
    simp

theorem countOcc_skip (c0 : Char) (sub pre t : Str) (h : c0 ∉ pre) :
    countOcc (c0 :: sub) (pre ++ t) = countOcc (c0 :: sub) t := by
  induction pre with
  | nil => rfl
  | cons x pre ih =>
    have hx : ¬ c0 = x := fun e => h (by simp [e])
    have hp : HasPrefix (x :: (pre ++ t)) (c0 :: sub) = false := by
      simp [HasPrefix, List.isPrefixOf, hx]
    rw [List.cons_append, countOcc, hp, ih fun hm => h (List.mem_cons_of_mem _ hm)]
    simp

theorem countOcc_beginMark_tail (a : Str) (ha : capE ∉ a) :
    countOcc beginMark (a ++ endMark) = 0 := by
  induction a with
  | nil => decide
  | cons x a ih =>
    have h1 := ih fun hm => ha (List.mem_cons_of_mem _ hm)
    have hp : HasPrefix (x :: (a ++ endMark)) beginMark = false := by
      cases a with
      | nil =>
        have hc : clash endMark "EGIN:VEVENT".toList = true := by decide
        have h2 := HasPrefix_clash endMark "EGIN:VEVENT".toList [] hc
        unfold HasPrefix at h2 ⊢
        rw [List.append_nil] at h2
        rw [beginMark_eq_cons]
        simp [List.isPrefixOf, h2]
      | cons y a2 =>
        have hy : ¬ capE = y := fun e => ha (by simp [e])
        have hy2 : ¬ Char.ofNat 69 = y := hy
        rw [beginMark_eq_cons]
        have e2 : "EGIN:VEVENT".toList = Char.ofNat 69 :: "GIN:VEVENT".toList := by decide
        rw [e2]
        simp [HasPrefix, List.isPrefixOf, hy2]
    rw [List.cons_append, countOcc, hp, h1]
    rfl

theorem countOcc_block (a : Str) (ha : capE ∉ a) :
    countOcc beginMark (beginMark ++ (a ++ endMark)) = 1 ∧
    countOcc endMark (beginMark ++ (a ++ endMark)) = 1 := by
  constructor
  · have hp : HasPrefix (beginMark ++ (a ++ endMark)) beginMark = true := by
      unfold HasPrefix
      rw [List.isPrefixOf_iff_prefix]
      exact List.prefix_append _ _
    have hc : clashAll beginMark "EGIN:VEVENT".toList = true := by decide
    have e : beginMark ++ (a ++ endMark)
        = Char.ofNat 66 :: ("EGIN:VEVENT".toList ++ (a ++ endMark)) := by
      rw [beginMark_eq_cons]
      rfl
    rw [e] at hp ⊢
    rw [countOcc, hp, countOcc_clashAll _ _ _ hc, countOcc_beginMark_tail a ha]
    rfl
  · have hc : clashAll endMark beginMark = true := by decide
    rw [countOcc_clashAll _ _ _ hc]
    have h1 : countOcc endMark (a ++ endMark) = countOcc endMark endMark := by
      rw [endMark_eq_cons]
      exact countOcc_skip capE _ a _ ha
    rw [h1]
    decide

/-! ### Matches as non-overlapping pieces of the input -/

theorem findAllAux_decomp (re : List Item)
    (hpos : ∀ t n, matchItems re t = some n → 1 ≤ n) (s : Str) (skip : Nat) :
    ∃ pre gaps, gaps.length = (findAllAux re skip s).length ∧
      s.drop skip = blocksInText pre ((findAllAux re skip s).zip gaps) := by
  induction s generalizing skip with
  | nil => exact ⟨[], [], by simp [findAllAux], by simp [findAllAux, blocksInText]⟩
  | cons c t ih =>
    cases skip with
    | succ k =>
      obtain ⟨pre, gaps, hl, hd⟩ := ih k
      exact ⟨pre, gaps, by rw [findAllAux]; exact hl, by rw [findAllAux, List.drop_succ_cons]; exact hd⟩
    | zero =>
      cases hm : matchItems re (c :: t) with
      | none =>
        obtain ⟨pre, gaps, hl, hd⟩ := ih 0
        refine ⟨c :: pre, gaps, by rw [findAllAux, hm]; exact hl, ?_⟩
        rw [findAllAux, hm]
        unfold blocksInText at hd ⊢
        simp only [List.drop_zero] at hd ⊢
        rw [List.cons_append, ← hd]
      | some n =>
        obtain ⟨pre, gaps, hl, hd⟩ := ih (n - 1)
        have hn := hpos _ _ hm
        refine ⟨[], pre :: gaps, by rw [findAllAux, hm]; simp [hl], ?_⟩
        rw [findAllAux, hm]
        unfold blocksInText at hd ⊢
        simp only [List.drop_zero, List.zip_cons_cons, List.flatMap_cons,
          List.nil_append, List.append_assoc]
        rw [← hd]
        have e : List.drop (n - 1) t = List.drop n (c :: t) := by
          obtain ⟨m, rfl⟩ : ∃ m, n = m + 1 := ⟨n - 1, by omega⟩
          simp
        rw [e, List.take_append_drop]

theorem matchItems_unquoted_pos (t : Str) (n : Nat) (h : matchItems unquotedRe t = some n) :
    1 ≤ n := by
  obtain ⟨p, rest, _, hl, hm⟩ := matchItems_sound _ _ _ h
  obtain ⟨a, hp, _⟩ := Matches_unquotedRe_shape p hm
  rw [← hl, hp, beginMark_eq_cons]
  simp

/-- C17. Fallback blocks never span two events: every block the unquoted scan
produces is `BEGIN:VEVENT`, then text without a capital E, then `END:VEVENT`; it
holds exactly one occurrence of `BEGIN:VEVENT` and exactly one of `END:VEVENT`;
and the blocks are non-overlapping pieces of the input, in order. -/
theorem fallback_blocks_single (input : Str) :
    (∀ b ∈ FindAllString unquotedRe input,
      (∃ a, b = beginMark ++ (a ++ endMark) ∧ capE ∉ a) ∧
      countOcc beginMark b = 1 ∧ countOcc endMark b = 1) ∧
    (∃ pre gaps, gaps.length = (FindAllString unquotedRe input).length ∧
      input = blocksInText pre ((FindAllString unquotedRe input).zip gaps)) := by
  constructor
  · intro b hb
    obtain ⟨hm, _⟩ := FindAllString_mem_Matches unquotedRe input b hb
    obtain ⟨a, hp, ha⟩ := Matches_unquotedRe_shape b hm
    rw [hp]
    exact ⟨⟨a, rfl, ha⟩, countOcc_block a ha⟩
  · obtain ⟨pre, gaps, hl, hd⟩ := findAllAux_decomp unquotedRe matchItems_unquoted_pos input 0
    exact ⟨pre, gaps, hl, by simpa using hd⟩

/-- C17, at `twoBlocks`: the scan yields the two blocks, and the first holds one
`BEGIN:VEVENT` and one `END:VEVENT`. -/
theorem fallback_blocks_single_witness :
    FindAllString unquotedRe twoBlocks
      = ["BEGIN:VEVENT\nSUMMARY:a\nEND:VEVENT".toList,
          "BEGIN:VEVENT\nSUMMARY:b\nEND:VEVENT".toList] ∧
    countOcc beginMark "BEGIN:VEVENT\nSUMMARY:a\nEND:VEVENT".toList = 1 ∧
    countOcc endMark "BEGIN:VEVENT\nSUMMARY:a\nEND:VEVENT".toList = 1 :=
  ⟨by decide,
    ((fallback_blocks_single twoBlocks).1 "BEGIN:VEVENT\nSUMMARY:a\nEND:VEVENT".toList
      (by decide)).2⟩

/-! ### Inverting the date parser -/

theorem digitChar_digitVal (c : Char) (h : isDigitChar c = true) :
    digitVal c < 10 ∧ digitChar (digitVal c) = c := by
  unfold isDigitChar at h
  simp only [Bool.and_eq_true, decide_eq_true_eq] at h
  unfold digitVal digitChar
  constructor
  · omega
  · have e : 48 + (c.toNat - 48) % 10 = c.toNat := by omega
    rw [e, Char.ofNat_toNat]

theorem digitChar_eq_of (c : Char) (n : Nat) (h : isDigitChar c = true)
    (hn : n % 10 = digitVal c) : digitChar n = c := by
  obtain ⟨_, h2⟩ := digitChar_digitVal c h
  have e : digitChar n = digitChar (digitVal c) := by
    unfold digitChar
    rw [hn]
    congr 2
    omega
  rw [e, h2]

theorem pad2_of_digits (a b : Char) (ha : isDigitChar a = true) (hb : isDigitChar b = true) :
    digitVal a * 10 + digitVal b < 100 ∧ pad2 (digitVal a * 10 + digitVal b) = [a, b] := by
  obtain ⟨ha1, _⟩ := digitChar_digitVal a ha
  obtain ⟨hb1, _⟩ := digitChar_digitVal b hb
  refine ⟨by omega, ?_⟩
  unfold pad2
  rw [digitChar_eq_of a _ ha (by omega), digitChar_eq_of b _ hb (by omega)]

theorem getnum_fixed_inv (s rest : Str) (n : Nat) (h : getnum s true = some (n, rest)) :
    n < 100 ∧ s = pad2 n ++ rest := by
  unfold getnum at h
  cases s with
  | nil => simp at h
  | cons a t =>
    simp only at h
    by_cases ha : isDigitChar a = true
    · rw [if_pos ha] at h
      cases t with
      | nil => simp at h
      | cons b u =>
        simp only at h
        by_cases hb : isDigitChar b = true
        · rw [if_pos hb] at h
          simp only [Option.some.injEq, Prod.mk.injEq] at h
          obtain ⟨h1, h2⟩ := pad2_of_digits a b ha hb
          rw [← h.1, ← h.2, h2]
          exact ⟨h1, rfl⟩
        · rw [if_neg hb] at h
          simp at h
    · rw [if_neg ha] at h
      simp at h

theorem getnum_pad2_free (n : Nat) (hn : n < 100) (rest : Str) :
    getnum (pad2 n ++ rest) false = some (n, rest) := by
  simp only [pad2, List.cons_append, List.nil_append, getnum, isDigitChar_digitChar,
    digitVal_digitChar, if_true]
  congr 2
  omega

theorem getnum_free_inv (s rest : Str) (n : Nat) (h : getnum s false = some (n, rest))
    (hd : ∃ c r, rest = c :: r ∧ isDigitChar c = true) :
    n < 100 ∧ s = pad2 n ++ rest := by
  obtain ⟨c, r, hr, hc⟩ := hd
  unfold getnum at h
  cases s with
  | nil => simp at h
  | cons a t =>
    simp only at h
    by_cases ha : isDigitChar a = true
    · rw [if_pos ha] at h
      cases t with
      | nil =>
        simp only [Bool.false_eq_true, if_false, Option.some.injEq, Prod.mk.injEq] at h
        rw [hr] at h
        exact absurd h.2 (by simp)
      | cons b u =>
        simp only at h
        by_cases hb : isDigitChar b = true
        · rw [if_pos hb] at h
          simp only [Option.some.injEq, Prod.mk.injEq] at h
          obtain ⟨h1, h2⟩ := pad2_of_digits a b ha hb
          rw [← h.1, ← h.2, h2]
          exact ⟨h1, rfl⟩
        · rw [if_neg hb] at h
          simp only [Bool.false_eq_true, if_false, Option.some.injEq, Prod.mk.injEq] at h
          rw [hr] at h
          have e2 : b = c := by
            have h3 := h.2
            simp only [List.cons.injEq] at h3
            exact h3.1
          rw [e2] at hb
          exact absurd hc hb
    · rw [if_neg ha] at h
      simp at h

theorem parseChunk_year_inv (f f1 : Fields) (s rest : Str)
    (h : parseChunk .stdLongYear f s = some (f1, rest)) :
    ∃ y, y ≤ 9999 ∧ s = pad4 y ++ rest ∧ f1 = { f with year := y } := by
  unfold parseChunk at h
  match s, h with
  | a :: b :: c :: d :: r, h =>
    simp only at h
    by_cases ha : isDigitChar a = true
    · rw [if_pos ha] at h
      unfold atoi at h
      simp only [leadingInt, ha, if_true] at h
      by_cases hb : isDigitChar b = true
      · simp only [hb, if_true] at h
        by_cases hc : isDigitChar c = true
        · simp only [hc, if_true] at h
          by_cases hd : isDigitChar d = true
          · simp only [hd, if_true, Option.some.injEq, Prod.mk.injEq] at h
            obtain ⟨a1, _⟩ := digitChar_digitVal a ha
            obtain ⟨b1, _⟩ := digitChar_digitVal b hb
            obtain ⟨c1, _⟩ := digitChar_digitVal c hc
            obtain ⟨d1, _⟩ := digitChar_digitVal d hd
            refine ⟨(((0 * 10 + digitVal a) * 10 + digitVal b) * 10 + digitVal c) * 10
              + digitVal d, by omega, ?_, h.1.symm⟩
            unfold pad4
            rw [digitChar_eq_of a _ ha (by omega), digitChar_eq_of b _ hb (by omega),
              digitChar_eq_of c _ hc (by omega), digitChar_eq_of d _ hd (by omega), ← h.2]
            rfl
          · simp [hd] at h
        · simp [hc] at h
      · simp [hb] at h
    · rw [if_neg ha] at h
      simp at h
  | [], h => simp at h
  | [_], h => simp at h
  | [_, _], h => simp at h
  | [_, _, _], h => simp at h

theorem leadingInt_digits (ds : Str) (x : Nat) (h : ∀ c ∈ ds, isDigitChar c = true) :
    leadingInt ds x = (ds.foldl (fun x c => x * 10 + digitVal c) x, []) := by
  induction ds generalizing x with
  | nil => rfl
  | cons c ds ih =>
    rw [leadingInt, if_pos (h c (List.mem_cons_self _ _)),
      ih _ fun y hy => h y (List.mem_cons_of_mem _ hy)]
    rfl

theorem atoi_digits (ds : Str) (h : ∀ c ∈ ds, isDigitChar c = true) :
    atoi ds = some (decimalValue ds) := by
  unfold atoi
  rw [leadingInt_digits ds 0 h]
  rfl

theorem parseNanoseconds_frac (sep d0 : Char) (ds tail : Str)
    (hd0 : isDigitChar d0 = true) (hds : ∀ c ∈ ds, isDigitChar c = true) :
    parseNanoseconds (sep :: d0 :: (ds ++ tail)) (2 + ds.length)
      = some (fracNanos (sep :: d0 :: ds)) := by
  have hall : ∀ c ∈ d0 :: ds, isDigitChar c = true := by
    intro c hc
    rcases List.mem_cons.mp hc with h1 | h1
    · rw [h1]; exact hd0
    · exact hds c h1
  have hall9 : ∀ c ∈ (d0 :: ds).take 9, isDigitChar c = true := fun c hc =>
    hall c (List.mem_of_mem_take hc)
  unfold parseNanoseconds fracNanos
  simp only [List.drop_succ_cons, List.drop_zero]
  by_cases hn : 2 + ds.length > 10
  · have e1 : ((sep :: d0 :: (ds ++ tail)).take 10).take 10 = sep :: ((d0 :: ds).take 9) := by
      rw [List.take_take]
      simp only [Nat.min_self, List.take_succ_cons, List.cons.injEq, true_and]
      rw [List.take_append_of_le_length (by omega)]
    simp only [hn, if_true, e1, List.drop_succ_cons, List.drop_zero, atoi_digits _ hall9]
    have hl : ((d0 :: ds).take 9).length = 9 := by
      rw [List.length_take]
      simp only [List.length_cons]
      omega
    rw [hl]
  · have e1 : (sep :: d0 :: (ds ++ tail)).take (2 + ds.length) = sep :: d0 :: ds := by
      have e0 : 2 + ds.length = (sep :: d0 :: ds).length := by simp; omega
      rw [e0, ← List.cons_append, ← List.cons_append, List.take_left]
    have e2 : (d0 :: ds).take 9 = d0 :: ds := by
      apply List.take_of_length_le
      simp only [List.length_cons]
      omega
    simp only [hn, if_false, e1, List.drop_succ_cons, List.drop_zero, e2, atoi_digits _ hall,
      List.length_cons]
    have e3 : 10 - (2 + ds.length) = 9 - (ds.length + 1) := by omega
    rw [e3]

theorem fracEnd_frac (sep d0 : Char) (ds tail : Str) (hds : ∀ c ∈ ds, isDigitChar c = true)
    (ht : ∀ c r, tail = c :: r → isDigitChar c = false) :
    fracEnd (sep :: d0 :: (ds ++ tail)) = 2 + ds.length := by
  unfold fracEnd
  simp only [List.drop_succ_cons, List.drop_zero]
  congr 1
  induction ds with
  | nil =>
    cases tail with
    | nil => rfl
    | cons c r => simp [List.takeWhile, ht c r rfl]
  | cons x ds ih =>
    have hx := hds x (List.mem_cons_self _ _)
    have h1 := ih fun c hc => hds c (List.mem_cons_of_mem _ hc)
    rw [List.cons_append, List.takeWhile_cons, if_pos hx, List.length_cons, h1,
      List.length_cons]

theorem parseChunks_cons_some (ch : Chunk) (rest : List Chunk) (f f1 : Fields) (v v1 : Str)
    (h : parseChunk ch f v = some (f1, v1)) :
    parseChunks (ch :: rest) f v = parseChunks rest f1 v1 := by
  rw [parseChunks, h]

theorem parseChunks_cons_inv (ch : Chunk) (rest : List Chunk) (f g : Fields) (v : Str)
    (h : parseChunks (ch :: rest) f v = some g) :
    ∃ f1 v1, parseChunk ch f v = some (f1, v1) ∧ parseChunks rest f1 v1 = some g := by
  rw [parseChunks] at h
  cases hc : parseChunk ch f v with
  | none => rw [hc] at h; simp at h
  | some p =>
    rw [hc] at h
    exact ⟨p.1, p.2, rfl, h⟩

theorem parseChunks_nil_inv (f g : Fields) (v : Str) (h : parseChunks [] f v = some g) :
    v = [] ∧ g = f := by
  rw [parseChunks] at h
  cases v with
  | nil => simpa using h.symm
  | cons c r => simp at h

theorem parseChunk_lit_inv (c : Char) (f f1 : Fields) (s r : Str)
    (h : parseChunk (.lit c) f s = some (f1, r)) : s = c :: r ∧ f1 = f := by
  unfold parseChunk at h
  cases s with
  | nil => simp at h
  | cons x t =>
    simp only at h
    by_cases hx : x = c
    · rw [if_pos hx] at h
      simp only [Option.some.injEq, Prod.mk.injEq] at h
      exact ⟨by rw [hx, h.2], h.1.symm⟩
    · rw [if_neg hx] at h
      simp at h

theorem parseChunk_month_inv (f f1 : Fields) (s r : Str)
    (h : parseChunk .stdZeroMonth f s = some (f1, r)) :
    ∃ m, 1 ≤ m ∧ m ≤ 12 ∧ s = pad2 m ++ r ∧ f1 = { f with month := m } := by
  unfold parseChunk at h
  cases hg : getnum s true with
  | none => rw [hg] at h; simp at h
  | some p =>
    obtain ⟨m, rest⟩ := p
    rw [hg] at h
    simp only at h
    by_cases hm : (m ≤ 0 || 12 < m) = true
    · rw [if_pos hm] at h
      simp at h
    · rw [if_neg hm] at h
      simp only [Option.some.injEq, Prod.mk.injEq] at h
      simp only [Bool.or_eq_true, decide_eq_true_eq, not_or, not_le, not_lt] at hm
      obtain ⟨_, hs⟩ := getnum_fixed_inv s rest m hg
      exact ⟨m, hm.1, hm.2, by rw [hs, h.2], h.1.symm⟩

theorem parseChunk_day_inv (f f1 : Fields) (s r : Str)
    (h : parseChunk .stdZeroDay f s = some (f1, r)) :
    ∃ d, d < 100 ∧ s = pad2 d ++ r ∧ f1 = { f with day := d } := by
  unfold parseChunk at h
  cases hg : getnum s true with
  | none => rw [hg] at h; simp at h
  | some p =>
    obtain ⟨d, rest⟩ := p
    rw [hg] at h
    simp only [Option.some.injEq, Prod.mk.injEq] at h
    obtain ⟨hd, hs⟩ := getnum_fixed_inv s rest d hg
    exact ⟨d, hd, by rw [hs, h.2], h.1.symm⟩

theorem parseChunk_hour_inv (f f1 : Fields) (s r : Str)
    (h : parseChunk .stdHour f s = some (f1, r))
    (hd : ∃ c r1, r = c :: r1 ∧ isDigitChar c = true) :
    ∃ hh, hh < 24 ∧ s = pad2 hh ++ r ∧ f1 = { f with hour := hh } := by
  unfold parseChunk at h
  cases hg : getnum s false with
  | none => rw [hg] at h; simp at h
  | some p =>
    obtain ⟨hh, rest⟩ := p
    rw [hg] at h
    simp only at h
    by_cases hm : 24 ≤ hh
    · rw [if_pos hm] at h
      simp at h
    · rw [if_neg hm] at h
      simp only [Option.some.injEq, Prod.mk.injEq] at h
      rw [← h.2] at hd
      obtain ⟨_, hs⟩ := getnum_free_inv s rest hh hg hd
      exact ⟨hh, by omega, by rw [hs, h.2], h.1.symm⟩

theorem parseChunk_minute_inv (f f1 : Fields) (s r : Str)
    (h : parseChunk .stdZeroMinute f s = some (f1, r)) :
    ∃ mi, mi < 60 ∧ s = pad2 mi ++ r ∧ f1 = { f with min := mi } := by
  unfold parseChunk at h
  cases hg : getnum s true with
  | none => rw [hg] at h; simp at h
  | some p =>
    obtain ⟨mi, rest⟩ := p
    rw [hg] at h
    simp only at h
    by_cases hm : 60 ≤ mi
    · rw [if_pos hm] at h
      simp at h
    · rw [if_neg hm] at h
      simp only [Option.some.injEq, Prod.mk.injEq] at h
      obtain ⟨_, hs⟩ := getnum_fixed_inv s rest mi hg
      exact ⟨mi, by omega, by rw [hs, h.2], h.1.symm⟩

theorem dropWhile_head_not (p : Char → Bool) (l : Str) (c : Char) (r : Str)
    (h : l.dropWhile p = c :: r) : p c = false := by
  induction l with
  | nil => simp at h
  | cons x l ih =>
    rw [List.dropWhile_cons] at h
    by_cases hx : p x = true
    · rw [if_pos hx] at h
      exact ih h
    · rw [if_neg hx] at h
      simp only [List.cons.injEq] at h
      rw [← h.1]
      simpa using hx

theorem fields_sec_nsec (f : Fields) (sec : Nat) (h : f.nsec = 0) :
    { f with sec := sec } = { f with sec := sec, nsec := fracNanos [] } := by
  cases f
  simp only [Fields.mk.injEq, true_and] at h ⊢
  rw [h]
  rfl

theorem parseChunk_second_frac (f : Fields) (sec : Nat) (hs : sec < 60) (sep d0 : Char)
    (ds tail : Str) (hsep : commaOrPeriod sep = true) (hd0 : isDigitChar d0 = true)
    (hds : ∀ c ∈ ds, isDigitChar c = true)
    (ht : ∀ c r, tail = c :: r → isDigitChar c = false) :
    parseChunk .stdZeroSecond f (pad2 sec ++ (sep :: d0 :: (ds ++ tail)))
      = some ({ f with sec := sec, nsec := fracNanos (sep :: d0 :: ds) }, tail) := by
  have hfe := fracEnd_frac sep d0 ds tail hds ht
  have hdrop : (sep :: d0 :: (ds ++ tail)).drop (2 + ds.length) = tail := by
    have e0 : 2 + ds.length = (sep :: d0 :: ds).length := by simp; omega
    rw [e0, ← List.cons_append, ← List.cons_append, List.drop_left]
  unfold parseChunk
  rw [getnum_pad2 sec (by omega)]
  simp only [if_neg (Nat.not_le.mpr hs), hsep, hd0, Bool.and_self, if_true, hfe,
    parseNanoseconds_frac sep d0 ds tail hd0 hds, hdrop]

theorem parseChunk_second_plain (f : Fields) (sec : Nat) (hs : sec < 60) (zone : Str)
    (hf : f.nsec = 0) (hz : zone = [] ∨ zone = [capZ]) :
    parseChunk .stdZeroSecond f (pad2 sec ++ zone)
      = some ({ f with sec := sec, nsec := fracNanos [] }, zone) := by
  unfold parseChunk
  rw [getnum_pad2 sec (by omega), ← fields_sec_nsec f sec hf]
  rcases hz with rfl | rfl <;> simp only [if_neg (Nat.not_le.mpr hs)]

theorem parseChunk_second_inv (f f1 : Fields) (s r : Str) (hf : f.nsec = 0)
    (h : parseChunk .stdZeroSecond f s = some (f1, r)) :
    ∃ sec frac, sec < 60 ∧ IsFrac frac ∧ s = pad2 sec ++ (frac ++ r) ∧
      f1 = { f with sec := sec, nsec := fracNanos frac } := by
  unfold parseChunk at h
  cases hg : getnum s true with
  | none => rw [hg] at h; simp at h
  | some p =>
    obtain ⟨sec, rest⟩ := p
    rw [hg] at h
    simp only at h
    obtain ⟨_, hs⟩ := getnum_fixed_inv s rest sec hg
    by_cases hm : 60 ≤ sec
    · rw [if_pos hm] at h
      simp at h
    · rw [if_neg hm] at h
      have plain : some ({ f with sec := sec }, rest) = some (f1, r) →
          ∃ sec frac, sec < 60 ∧ IsFrac frac ∧ s = pad2 sec ++ (frac ++ r) ∧
            f1 = { f with sec := sec, nsec := fracNanos frac } := by
        intro h0
        simp only [Option.some.injEq, Prod.mk.injEq] at h0
        exact ⟨sec, [], by omega, Or.inl rfl, by rw [hs, h0.2]; rfl,
          by rw [← h0.1]; exact fields_sec_nsec f sec hf⟩
      match rest, hs, h with
      | [], hs, h => exact plain h
      | [_], hs, h => exact plain h
      | p :: q :: tl, hs, h =>
        simp only at h
        by_cases hc : (commaOrPeriod p && isDigitChar q) = true
        · rw [if_pos hc] at h
          simp only [Bool.and_eq_true] at hc
          have hsplit : tl = tl.takeWhile isDigitChar ++ tl.dropWhile isDigitChar :=
            (List.takeWhile_append_dropWhile _ _).symm
          have hds : ∀ c ∈ tl.takeWhile isDigitChar, isDigitChar c = true := fun c hc1 =>
            (List.mem_takeWhile_imp hc1)
          have ht : ∀ c r1, tl.dropWhile isDigitChar = c :: r1 → isDigitChar c = false :=
            fun c r1 e => dropWhile_head_not _ _ _ _ e
          have hfwd := parseChunk_second_frac f sec (by omega) p q (tl.takeWhile isDigitChar)
            (tl.dropWhile isDigitChar) hc.1 hc.2 hds ht
          rw [← hsplit, ← hs] at hfwd
          unfold parseChunk at hfwd
          rw [hg] at hfwd
          simp only [if_neg hm, hc.1, hc.2, Bool.and_self, if_true] at hfwd
          rw [hfwd] at h
          simp only [Option.some.injEq, Prod.mk.injEq] at h
          refine ⟨sec, p :: q :: tl.takeWhile isDigitChar, by omega,
            Or.inr ⟨p, q, _, rfl, hc.1, hc.2, hds⟩, ?_, h.1.symm⟩
          rw [hs, ← h.2]
          simp only [List.cons_append]
          rw [← hsplit]
        · rw [if_neg hc] at h
          exact plain h

theorem parseChunk_month_fwd (f : Fields) (m : Nat) (h1 : 1 ≤ m) (h2 : m ≤ 12) (r : Str) :
    parseChunk .stdZeroMonth f (pad2 m ++ r) = some ({ f with month := m }, r) := by
  unfold parseChunk
  rw [getnum_pad2 m (by omega)]
  have hm : ¬ ((m ≤ 0 || 12 < m) = true) := by
    simp only [Bool.or_eq_true, decide_eq_true_eq, not_or, not_le, not_lt]
    omega
  simp only [if_neg hm]

theorem parseChunk_day_fwd (f : Fields) (d : Nat) (h : d < 100) (r : Str) :
    parseChunk .stdZeroDay f (pad2 d ++ r) = some ({ f with day := d }, r) := by
  unfold parseChunk
  rw [getnum_pad2 d h]

theorem parseChunk_hour_fwd (f : Fields) (hh : Nat) (h : hh < 24) (r : Str) :
    parseChunk .stdHour f (pad2 hh ++ r) = some ({ f with hour := hh }, r) := by
  unfold parseChunk
  rw [getnum_pad2_free hh (by omega)]
  simp only [if_neg (Nat.not_le.mpr h)]

theorem parseChunk_minute_fwd (f : Fields) (mi : Nat) (h : mi < 60) (r : Str) :
    parseChunk .stdZeroMinute f (pad2 mi ++ r) = some ({ f with min := mi }, r) := by
  unfold parseChunk
  rw [getnum_pad2 mi (by omega)]
  simp only [if_neg (Nat.not_le.mpr h)]

theorem parseChunk_lit_fwd (c : Char) (f : Fields) (r : Str) :
    parseChunk (.lit c) f (c :: r) = some (f, r) := by
  unfold parseChunk
  simp

theorem parseChunk_second_fwd (f : Fields) (sec : Nat) (hs : sec < 60) (frac zone : Str)
    (hf : f.nsec = 0) (hfrac : IsFrac frac) (hz : zone = [] ∨ zone = [capZ]) :
    parseChunk .stdZeroSecond f (pad2 sec ++ (frac ++ zone))
      = some ({ f with sec := sec, nsec := fracNanos frac }, zone) := by
  rcases hfrac with rfl | ⟨sep, d0, ds, rfl, h1, h2, h3⟩
  · exact parseChunk_second_plain f sec hs zone hf hz
  · have ht : ∀ c r, zone = c :: r → isDigitChar c = false := by
      intro c r e
      rcases hz with hz | hz
      · rw [hz] at e; simp at e
      · rw [hz] at e
        simp only [List.cons.injEq] at e
        rw [← e.1]
        decide
    exact parseChunk_second_frac f sec hs sep d0 ds zone h1 h2 h3 ht

theorem dateChunks_fwd (rest : List Chunk) (f : Fields) (y m d : Nat) (r : Str)
    (hy : y ≤ 9999) (hm1 : 1 ≤ m) (hm2 : m ≤ 12) (hd : d < 100) :
    parseChunks (.stdLongYear :: .stdZeroMonth :: .stdZeroDay :: rest) f
        (pad4 y ++ (pad2 m ++ (pad2 d ++ r)))
      = parseChunks rest { f with year := y, month := m, day := d } r := by
  rw [parseChunks_cons_some _ _ _ _ _ _ (parseChunk_year f y hy _),
    parseChunks_cons_some _ _ _ _ _ _ (parseChunk_month_fwd _ m hm1 hm2 _),
    parseChunks_cons_some _ _ _ _ _ _ (parseChunk_day_fwd _ d hd _)]

theorem dateChunks_inv (rest : List Chunk) (f g : Fields) (tok : Str)
    (h : parseChunks (.stdLongYear :: .stdZeroMonth :: .stdZeroDay :: rest) f tok = some g) :
    ∃ y m d r, y ≤ 9999 ∧ 1 ≤ m ∧ m ≤ 12 ∧ d < 100 ∧
      tok = pad4 y ++ (pad2 m ++ (pad2 d ++ r)) ∧
      parseChunks rest { f with year := y, month := m, day := d } r = some g := by
  obtain ⟨f1, v1, h1, h⟩ := parseChunks_cons_inv _ _ _ _ _ h
  obtain ⟨f2, v2, h2, h⟩ := parseChunks_cons_inv _ _ _ _ _ h
  obtain ⟨f3, v3, h3, h⟩ := parseChunks_cons_inv _ _ _ _ _ h
  obtain ⟨y, hy, e1, rfl⟩ := parseChunk_year_inv _ _ _ _ h1
  obtain ⟨m, hm1, hm2, e2, rfl⟩ := parseChunk_month_inv _ _ _ _ h2
  obtain ⟨d, hd, e3, rfl⟩ := parseChunk_day_inv _ _ _ _ h3
  exact ⟨y, m, d, v3, hy, hm1, hm2, hd, by rw [e1, e2, e3], h⟩

theorem clockChunks_fwd (rest : List Chunk) (f : Fields) (hh mi sec : Nat) (frac zone : Str)
    (hc : ValidClock hh mi sec) (hf : f.nsec = 0) (hfrac : IsFrac frac)
    (hz : zone = [] ∨ zone = [capZ]) :
    parseChunks (.lit (Char.ofNat 84) :: .stdHour :: .stdZeroMinute :: .stdZeroSecond :: rest) f
        (capT :: (pad2 hh ++ (pad2 mi ++ (pad2 sec ++ (frac ++ zone)))))
      = parseChunks rest
          { f with hour := hh, min := mi, sec := sec, nsec := fracNanos frac } zone := by
  obtain ⟨h1, h2, h3⟩ := hc
  show parseChunks _ f (Char.ofNat 84 :: _) = _
  rw [parseChunks_cons_some _ _ _ _ _ _ (parseChunk_lit_fwd _ f _),
    parseChunks_cons_some _ _ _ _ _ _ (parseChunk_hour_fwd _ hh h1 _),
    parseChunks_cons_some _ _ _ _ _ _ (parseChunk_minute_fwd _ mi h2 _)]
  have hf2 : ({ ({ f with hour := hh } : Fields) with min := mi } : Fields).nsec = 0 := hf
  exact parseChunks_cons_some _ _ _ _ _ _
    (parseChunk_second_fwd _ sec h3 frac zone hf2 hfrac hz)

theorem isDigitChar_head_pad2 (n : Nat) (r : Str) :
    ∃ c r1, pad2 n ++ r = c :: r1 ∧ isDigitChar c = true :=
  ⟨digitChar (n / 10), digitChar n :: r, rfl, isDigitChar_digitChar _⟩

theorem clockChunks_inv (rest : List Chunk) (f g : Fields) (r : Str) (hf : f.nsec = 0)
    (h : parseChunks (.lit (Char.ofNat 84) :: .stdHour :: .stdZeroMinute :: .stdZeroSecond
      :: rest) f r = some g) :
    ∃ hh mi sec frac r1, ValidClock hh mi sec ∧ IsFrac frac ∧
      r = capT :: (pad2 hh ++ (pad2 mi ++ (pad2 sec ++ (frac ++ r1)))) ∧
      parseChunks rest
        { f with hour := hh, min := mi, sec := sec, nsec := fracNanos frac } r1 = some g := by
  obtain ⟨f1, v1, h1, h⟩ := parseChunks_cons_inv _ _ _ _ _ h
  obtain ⟨f2, v2, h2, h⟩ := parseChunks_cons_inv _ _ _ _ _ h
  obtain ⟨f3, v3, h3, h⟩ := parseChunks_cons_inv _ _ _ _ _ h
  obtain ⟨f4, v4, h4, h⟩ := parseChunks_cons_inv _ _ _ _ _ h
  obtain ⟨e1, ef1⟩ := parseChunk_lit_inv _ _ _ _ _ h1
  obtain ⟨mi, hmi, e3, ef3⟩ := parseChunk_minute_inv _ _ _ _ h3
  obtain ⟨hh, hhh, e2, ef2⟩ := parseChunk_hour_inv _ _ _ _ h2
    (by rw [e3]; exact isDigitChar_head_pad2 mi v3)
  have hf3 : f3.nsec = 0 := by rw [ef3, ef2, ef1]; exact hf
  obtain ⟨sec, frac, hsec, hfrac, e4, ef4⟩ := parseChunk_second_inv _ _ _ _ hf3 h4
  refine ⟨hh, mi, sec, frac, v4, ⟨hhh, hmi, hsec⟩, hfrac, by rw [e1, e2, e3, e4]; rfl, ?_⟩
  rw [ef4, ef3, ef2, ef1] at h
  exact h

theorem layoutDate_eq : layoutDate = .stdLongYear :: .stdZeroMonth :: .stdZeroDay :: [] := rfl

theorem layoutUTC_eq :
    layoutUTC = .stdLongYear :: .stdZeroMonth :: .stdZeroDay :: .lit (Char.ofNat 84) :: .stdHour
      :: .stdZeroMinute :: .stdZeroSecond :: [.lit (Char.ofNat 90)] := rfl

theorem layoutLocal_eq :
    layoutLocal = .stdLongYear :: .stdZeroMonth :: .stdZeroDay :: .lit (Char.ofNat 84)
      :: .stdHour :: .stdZeroMinute :: .stdZeroSecond :: [] := rfl

theorem timeParse_layoutDate_inv (tok : Str) (t : Time)
    (h : timeParse layoutDate tok = some t) :
    ∃ y m d, ValidDate y m d ∧ tok = dateToken y m d ∧ t = midnight y m d := by
  unfold timeParse at h
  cases hp : parseChunks layoutDate ⟨0, 1, 1, 0, 0, 0, 0⟩ tok with
  | none => rw [hp] at h; simp at h
  | some g =>
    rw [hp] at h
    rw [layoutDate_eq] at hp
    obtain ⟨y, m, d, r, hy, hm1, hm2, hd, etok, hrest⟩ := dateChunks_inv _ _ _ _ hp
    obtain ⟨er, eg⟩ := parseChunks_nil_inv _ _ _ hrest
    rw [eg] at h
    simp only at h
    by_cases hday : (decide (d < 1) || decide (d > daysIn m y)) = true
    · rw [if_pos hday] at h
      simp at h
    · rw [if_neg hday] at h
      simp only [Bool.or_eq_true, decide_eq_true_eq, not_or, not_lt, gt_iff_lt] at hday
      refine ⟨y, m, d, ⟨hy, hm1, hm2, hday.1, hday.2⟩, ?_, ?_⟩
      · rw [etok, er]
        simp [dateToken]
      · exact (Option.some.inj h).symm

theorem stamp_fwd (rest : List Chunk) (zone : Str) (hz : zone = [] ∨ zone = [capZ])
    (hrest : ∀ F, parseChunks rest F zone = some F)
    (y m d hh mi sec : Nat) (frac : Str) (hv : ValidDate y m d) (hc : ValidClock hh mi sec)
    (hfrac : IsFrac frac) :
    timeParse (.stdLongYear :: .stdZeroMonth :: .stdZeroDay :: .lit (Char.ofNat 84) :: .stdHour
        :: .stdZeroMinute :: .stdZeroSecond :: rest) (timeToken y m d hh mi sec frac zone)
      = some (Date y m d hh mi sec (fracNanos frac)) := by
  obtain ⟨hy, hm1, hm2, hd1, hd2⟩ := hv
  have hd31 := daysIn_le m y
  have e : timeToken y m d hh mi sec frac zone
      = pad4 y ++ (pad2 m ++ (pad2 d ++ (capT :: (pad2 hh ++ (pad2 mi ++ (pad2 sec
          ++ (frac ++ zone))))))) := by
    simp [timeToken, dateToken]
  unfold timeParse
  rw [e, dateChunks_fwd _ _ y m d _ hy hm1 hm2 (by omega),
    clockChunks_fwd _ _ hh mi sec frac zone hc rfl hfrac hz, hrest]
  have hday : ¬ ((decide (d < 1) || decide (d > daysIn m y)) = true) := by
    simp only [Bool.or_eq_true, decide_eq_true_eq, not_or, not_lt, gt_iff_lt]
    omega
  simp only [if_neg hday]

theorem stamp_inv (rest : List Chunk) (zone : Str)
    (hrest : ∀ F r g, parseChunks rest F r = some g → r = zone ∧ g = F)
    (tok : Str) (t : Time)
    (h : timeParse (.stdLongYear :: .stdZeroMonth :: .stdZeroDay :: .lit (Char.ofNat 84)
        :: .stdHour :: .stdZeroMinute :: .stdZeroSecond :: rest) tok = some t) :
    ∃ y m d hh mi sec frac, ValidDate y m d ∧ ValidClock hh mi sec ∧ IsFrac frac ∧
      tok = timeToken y m d hh mi sec frac zone ∧ t = Date y m d hh mi sec (fracNanos frac) := by
  unfold timeParse at h
  cases hp : parseChunks (.stdLongYear :: .stdZeroMonth :: .stdZeroDay :: .lit (Char.ofNat 84)
        :: .stdHour :: .stdZeroMinute :: .stdZeroSecond :: rest) ⟨0, 1, 1, 0, 0, 0, 0⟩ tok with
  | none => rw [hp] at h; simp at h
  | some g =>
    rw [hp] at h
    obtain ⟨y, m, d, r, hy, hm1, hm2, hd, etok, hrest1⟩ := dateChunks_inv _ _ _ _ hp
    obtain ⟨hh, mi, sec, frac, r1, hc, hfrac, er, hrest2⟩ := clockChunks_inv _ _ _ _ rfl hrest1
    obtain ⟨er1, eg⟩ := hrest _ _ _ hrest2
    rw [eg] at h
    simp only at h
    by_cases hday : (decide (d < 1) || decide (d > daysIn m y)) = true
    · rw [if_pos hday] at h
      simp at h
    · rw [if_neg hday] at h
      simp only [Bool.or_eq_true, decide_eq_true_eq, not_or, not_lt, gt_iff_lt] at hday
      refine ⟨y, m, d, hh, mi, sec, frac, ⟨hy, hm1, hm2, hday.1, hday.2⟩, hc, hfrac, ?_, ?_⟩
      · rw [etok, er, er1]
        simp [timeToken, dateToken]
      · exact (Option.some.inj h).symm

theorem parseChunks_Z_fwd (F : Fields) : parseChunks [.lit (Char.ofNat 90)] F [capZ] = some F := by
  show parseChunks [.lit (Char.ofNat 90)] F [Char.ofNat 90] = some F
  rw [parseChunks_cons_some _ _ _ _ _ _ (parseChunk_lit_fwd _ F _)]
  rfl

theorem parseChunks_Z_inv (F : Fields) (r : Str) (g : Fields)
    (h : parseChunks [.lit (Char.ofNat 90)] F r = some g) : r = [capZ] ∧ g = F := by
  obtain ⟨f1, v1, h1, h2⟩ := parseChunks_cons_inv _ _ _ _ _ h
  obtain ⟨e1, ef1⟩ := parseChunk_lit_inv _ _ _ _ _ h1
  obtain ⟨e2, eg⟩ := parseChunks_nil_inv _ _ _ h2
  rw [e1, e2, eg, ef1]
  exact ⟨rfl, rfl⟩

theorem timeParse_layoutUTC_fwd (y m d hh mi sec : Nat) (frac : Str) (hv : ValidDate y m d)
    (hc : ValidClock hh mi sec) (hfrac : IsFrac frac) :
    timeParse layoutUTC (timeToken y m d hh mi sec frac [capZ])
      = some (Date y m d hh mi sec (fracNanos frac)) := by
  rw [layoutUTC_eq]
  exact stamp_fwd _ [capZ] (Or.inr rfl) parseChunks_Z_fwd y m d hh mi sec frac hv hc hfrac

theorem timeParse_layoutLocal_fwd (y m d hh mi sec : Nat) (frac : Str) (hv : ValidDate y m d)
    (hc : ValidClock hh mi sec) (hfrac : IsFrac frac) :
    timeParse layoutLocal (timeToken y m d hh mi sec frac [])
      = some (Date y m d hh mi sec (fracNanos frac)) := by
  rw [layoutLocal_eq]
  have hnil : ∀ F : Fields, parseChunks [] F [] = some F := fun F => rfl
  exact stamp_fwd [] [] (Or.inl rfl) hnil y m d hh mi sec frac hv hc hfrac

theorem timeParse_layoutUTC_inv (tok : Str) (t : Time) (h : timeParse layoutUTC tok = some t) :
    ∃ y m d hh mi sec frac, ValidDate y m d ∧ ValidClock hh mi sec ∧ IsFrac frac ∧
      tok = timeToken y m d hh mi sec frac [capZ] ∧
      t = Date y m d hh mi sec (fracNanos frac) := by
  rw [layoutUTC_eq] at h
  exact stamp_inv _ [capZ] parseChunks_Z_inv tok t h

theorem timeParse_layoutLocal_inv (tok : Str) (t : Time)
    (h : timeParse layoutLocal tok = some t) :
    ∃ y m d hh mi sec frac, ValidDate y m d ∧ ValidClock hh mi sec ∧ IsFrac frac ∧
      tok = timeToken y m d hh mi sec frac [] ∧
      t = Date y m d hh mi sec (fracNanos frac) := by
  rw [layoutLocal_eq] at h
  exact stamp_inv _ [] (fun F r g hh => parseChunks_nil_inv F g r hh) tok t h

theorem length_dateToken (y m d : Nat) : (dateToken y m d).length = 8 := by
  simp [dateToken, pad4, pad2]

theorem length_timeToken (y m d hh mi sec : Nat) (frac zone : Str) :
    (timeToken y m d hh mi sec frac zone).length = 15 + frac.length + zone.length := by
  simp only [timeToken, List.length_append, length_dateToken, List.length_cons, pad2,
    List.length_nil]
  omega

theorem timeParse_layoutDate_timeToken (y m d hh mi sec : Nat) (frac zone : Str) :
    timeParse layoutDate (timeToken y m d hh mi sec frac zone) = none := by
  cases h : timeParse layoutDate (timeToken y m d hh mi sec frac zone) with
  | none => rfl
  | some t =>
    obtain ⟨y1, m1, d1, _, e, _⟩ := timeParse_layoutDate_inv _ _ h
    have h1 := congrArg List.length e
    rw [length_dateToken, length_timeToken] at h1
    omega

theorem timeParse_layoutUTC_noZone (y m d hh mi sec : Nat) (frac : Str)
    (hv : ValidDate y m d) (hc : ValidClock hh mi sec) (hfrac : IsFrac frac) :
    timeParse layoutUTC (timeToken y m d hh mi sec frac []) = none := by
  obtain ⟨hy, hm1, hm2, hd1, hd2⟩ := hv
  have hd31 := daysIn_le m y
  have e : timeToken y m d hh mi sec frac []
      = pad4 y ++ (pad2 m ++ (pad2 d ++ (capT :: (pad2 hh ++ (pad2 mi ++ (pad2 sec
          ++ (frac ++ [] : Str))))))) := by
    simp [timeToken, dateToken]
  unfold timeParse
  rw [layoutUTC_eq, e, dateChunks_fwd _ _ y m d _ hy hm1 hm2 (by omega),
    clockChunks_fwd _ _ hh mi sec frac [] hc rfl hfrac (Or.inl rfl)]
  rfl

theorem parseDate_cases (tok : Str) (t : Time) :
    parseDate tok = some t ↔
      timeParse layoutDate tok = some t ∨
      (timeParse layoutDate tok = none ∧ timeParse layoutUTC tok = some t) ∨
      (timeParse layoutDate tok = none ∧ timeParse layoutUTC tok = none ∧
        timeParse layoutLocal tok = some t) := by
  unfold parseDate
  simp only [parseFormats]
  cases h1 : timeParse layoutDate tok with
  | some t1 => simp
  | none =>
    cases h2 : timeParse layoutUTC tok with
    | some t2 => simp
    | none =>
      cases h3 : timeParse layoutLocal tok with
      | some t3 => simp
      | none => simp

/-- C15, refuted: the token `20240615T100000.5Z`, of 18 characters, is accepted,
with half a second, although it is neither a date token nor a timestamp token
without a fractional second. -/
theorem parseDate_fraction_counterexample :
    parseDate "20240615T100000.5Z".toList = some (Date 2024 6 15 10 0 0 500000000) ∧
    (¬ ∃ y m d, "20240615T100000.5Z".toList = dateToken y m d) ∧
    (¬ ∃ y m d hh mi sec zone, (zone = [capZ] ∨ zone = []) ∧
      "20240615T100000.5Z".toList = timeToken y m d hh mi sec [] zone) := by
  refine ⟨by decide, ?_, ?_⟩
  · rintro ⟨y, m, d, e⟩
    have h := congrArg List.length e
    rw [length_dateToken] at h
    exact absurd h (by decide)
  · rintro ⟨y, m, d, hh, mi, sec, zone, hz, e⟩
    have h := congrArg List.length e
    rw [length_timeToken] at h
    rcases hz with rfl | rfl
    · exact absurd h (by decide)
    · exact absurd h (by decide)

/-- C15, amended. `parseDate` succeeds on a token, with the instant `t`, exactly
when the token is the date token of a valid date and `t` its midnight, or the
token is a valid date, `T`, a valid time of day in six digits, an optional
fractional second (a period or comma and digits), and `Z` or nothing, and `t` is
that instant with the fraction as nanoseconds; on every other token it fails. -/
theorem parseDate_contract (tok : Str) (t : Time) :
    parseDate tok = some t ↔
      (∃ y m d, ValidDate y m d ∧ tok = dateToken y m d ∧ t = midnight y m d) ∨
      (∃ y m d hh mi sec frac zone, ValidDate y m d ∧ ValidClock hh mi sec ∧ IsFrac frac ∧
        (zone = [capZ] ∨ zone = []) ∧ tok = timeToken y m d hh mi sec frac zone ∧
        t = Date y m d hh mi sec (fracNanos frac)) := by
  rw [parseDate_cases]
  constructor
  · rintro (h | ⟨_, h⟩ | ⟨_, _, h⟩)
    · exact Or.inl (timeParse_layoutDate_inv tok t h)
    · obtain ⟨y, m, d, hh, mi, sec, frac, hv, hc, hf, e, et⟩ := timeParse_layoutUTC_inv tok t h
      exact Or.inr ⟨y, m, d, hh, mi, sec, frac, [capZ], hv, hc, hf, Or.inl rfl, e, et⟩
    · obtain ⟨y, m, d, hh, mi, sec, frac, hv, hc, hf, e, et⟩ :=
        timeParse_layoutLocal_inv tok t h
      exact Or.inr ⟨y, m, d, hh, mi, sec, frac, [], hv, hc, hf, Or.inr rfl, e, et⟩
  · rintro (⟨y, m, d, hv, e, et⟩ | ⟨y, m, d, hh, mi, sec, frac, zone, hv, hc, hf, hz, e, et⟩)
    · left
      rw [e, et]
      exact timeParse_dateToken y m d hv
    · right
      rcases hz with rfl | rfl
      · left
        rw [e, et]
        exact ⟨timeParse_layoutDate_timeToken _ _ _ _ _ _ _ _,
          timeParse_layoutUTC_fwd y m d hh mi sec frac hv hc hf⟩
      · right
        rw [e, et]
        exact ⟨timeParse_layoutDate_timeToken _ _ _ _ _ _ _ _,
          timeParse_layoutUTC_noZone y m d hh mi sec frac hv hc hf,
          timeParse_layoutLocal_fwd y m d hh mi sec frac hv hc hf⟩

/-- C15 amended, at the three shapes, at a timestamp with a fractional second,
and at the four tokens of the specification that are rejected. -/
theorem parseDate_contract_witness :
    parseDate "20240615".toList = some (midnight 2024 6 15) ∧
    parseDate "20240615T100000Z".toList = some (Date 2024 6 15 10 0 0 0) ∧
    parseDate "20240615T100000".toList = some (Date 2024 6 15 10 0 0 0) ∧
    parseDate "20240615T100000,25".toList = some (Date 2024 6 15 10 0 0 250000000) ∧
    parseDate [] = none ∧ parseDate "2024-06-15".toList = none ∧
    parseDate "20240615T1000".toList = none ∧ parseDate "20240230".toList = none := by
  have hv : ValidDate 2024 6 15 := by unfold ValidDate; decide
  have hc : ValidClock 10 0 0 := by unfold ValidClock; decide
  refine ⟨?_, ?_, ?_, ?_, by decide, by decide, by decide, by decide⟩
  · exact (parseDate_contract _ _).mpr (Or.inl ⟨2024, 6, 15, hv, by decide, rfl⟩)
  · exact (parseDate_contract _ _).mpr
      (Or.inr ⟨2024, 6, 15, 10, 0, 0, [], [capZ], hv, hc, Or.inl rfl, Or.inl rfl, by decide,
        by decide⟩)
  · exact (parseDate_contract _ _).mpr
      (Or.inr ⟨2024, 6, 15, 10, 0, 0, [], [], hv, hc, Or.inl rfl, Or.inr rfl, by decide,
        by decide⟩)
  · exact (parseDate_contract _ _).mpr
      (Or.inr ⟨2024, 6, 15, 10, 0, 0, ",25".toList, [], hv, hc,
        Or.inr ⟨Char.ofNat 44, Char.ofNat 50, [Char.ofNat 53], by decide, by decide, by decide,
          by decide⟩, Or.inr rfl, by decide, by decide⟩)

theorem length_le_len (s : Str) : s.length ≤ len s := by
  unfold len
  induction s with
  | nil => simp
  | cons c s ih =>
    have h1 : 1 ≤ runeLen c := by
      unfold runeLen
      split_ifs <;> omega
    simp only [List.map_cons, List.sum_cons, List.length_cons]
    omega

theorem len_timeToken_ne (y m d hh mi sec : Nat) (frac zone : Str) :
    len (timeToken y m d hh mi sec frac zone) ≠ 8 := by
  have h1 := length_le_len (timeToken y m d hh mi sec frac zone)
  rw [length_timeToken] at h1
  omega

/-- C20. The length test selects exactly the date-only encoding: for a token
that `parseDate` accepts, its length is 8 exactly when the date-only layout
accepted it, and then the token is the date token of a valid date and the
instant its midnight; a token that a timestamp layout accepts never has
length 8. -/
theorem length_selects_dateOnly (tok : Str) (t : Time) (h : parseDate tok = some t) :
    (len tok = 8 ↔ timeParse layoutDate tok = some t) ∧
    (len tok = 8 → ∃ y m d, ValidDate y m d ∧ tok = dateToken y m d ∧ t = midnight y m d) ∧
    (∀ t1, timeParse layoutUTC tok = some t1 ∨ timeParse layoutLocal tok = some t1 →
      len tok ≠ 8) := by
  have hstamp : ∀ t1, timeParse layoutUTC tok = some t1 ∨ timeParse layoutLocal tok = some t1 →
      len tok ≠ 8 := by
    rintro t1 (h1 | h1)
    · obtain ⟨y, m, d, hh, mi, sec, frac, _, _, _, e, _⟩ := timeParse_layoutUTC_inv tok t1 h1
      rw [e]
      exact len_timeToken_ne _ _ _ _ _ _ _ _
    · obtain ⟨y, m, d, hh, mi, sec, frac, _, _, _, e, _⟩ := timeParse_layoutLocal_inv tok t1 h1
      rw [e]
      exact len_timeToken_ne _ _ _ _ _ _ _ _
  have hiff : len tok = 8 ↔ timeParse layoutDate tok = some t := by
    rcases (parseDate_cases tok t).mp h with h1 | ⟨h0, h1⟩ | ⟨h0, _, h1⟩
    · obtain ⟨y, m, d, _, e, _⟩ := timeParse_layoutDate_inv tok t h1
      exact ⟨fun _ => h1, fun _ => by rw [e]; exact len_dateToken y m d⟩
    · exact ⟨fun hl => absurd hl (hstamp t (Or.inl h1)), fun hd => by rw [h0] at hd; simp at hd⟩
    · exact ⟨fun hl => absurd hl (hstamp t (Or.inr h1)), fun hd => by rw [h0] at hd; simp at hd⟩
  exact ⟨hiff, fun hl => timeParse_layoutDate_inv tok t (hiff.mp hl), hstamp⟩

/-- C20, at a date-only token and at a timestamp token. -/
theorem length_selects_dateOnly_witness :
    (len "20240615".toList = 8 ↔
      timeParse layoutDate "20240615".toList = some (midnight 2024 6 15)) ∧
    len "20240615T100000Z".toList ≠ 8 :=
  ⟨(length_selects_dateOnly "20240615".toList (midnight 2024 6 15) (by decide)).1,
    (length_selects_dateOnly "20240615T100000Z".toList (Date 2024 6 15 10 0 0 0)
      (by decide)).2.2 (Date 2024 6 15 10 0 0 0) (Or.inl (by decide))⟩

/-! ### Instants follow the calendar order -/

theorem isLeap_iff (y : Nat) :
    isLeap y = true ↔ (y % 4 = 0 ∧ (y % 100 ≠ 0 ∨ y % 400 = 0)) := by
  simp [isLeap]

theorem daysSinceEpoch_succ (y : Nat) :
    daysSinceEpoch (y + 1) = daysSinceEpoch y + 365 + (if isLeap y then 1 else 0) := by
  have e1 : y % 100 % 4 = y % 4 := Nat.mod_mod_of_dvd y (by decide)
  have e2 : y % 400 % 100 = y % 100 := Nat.mod_mod_of_dvd y (by decide)
  have a4 : (y + 99) / 100 ≤ (y + 3) / 4 := by omega
  have b4 : (y + 1 + 99) / 100 ≤ (y + 1 + 3) / 4 := by omega
  by_cases h4 : y % 4 = 0
  · have a1 : (y + 1 + 3) / 4 = (y + 3) / 4 + 1 := by omega
    by_cases h100 : y % 100 = 0
    · have a2 : (y + 1 + 99) / 100 = (y + 99) / 100 + 1 := by omega
      by_cases h400 : y % 400 = 0
      · have a3 : (y + 1 + 399) / 400 = (y + 399) / 400 + 1 := by omega
        have hl : isLeap y = true := (isLeap_iff y).mpr ⟨h4, Or.inr h400⟩
        rw [if_pos hl]
        unfold daysSinceEpoch
        rw [a1, a2, a3]
        omega
      · have a3 : (y + 1 + 399) / 400 = (y + 399) / 400 := by omega
        have hl : ¬ isLeap y = true := fun hh => by
          rcases ((isLeap_iff y).mp hh).2 with h | h
          · exact h h100
          · exact h400 h
        rw [if_neg hl]
        unfold daysSinceEpoch
        rw [a1, a2, a3]
        omega
    · have h400 : y % 400 ≠ 0 := by omega
      have a2 : (y + 1 + 99) / 100 = (y + 99) / 100 := by omega
      have a3 : (y + 1 + 399) / 400 = (y + 399) / 400 := by omega
      have hl : isLeap y = true := (isLeap_iff y).mpr ⟨h4, Or.inl h100⟩
      rw [if_pos hl]
      unfold daysSinceEpoch
      rw [a1, a2, a3]
      omega
  · have hl : ¬ isLeap y = true := fun hh => h4 ((isLeap_iff y).mp hh).1
    have h100 : y % 100 ≠ 0 := by omega
    have h400 : y % 400 ≠ 0 := by omega
    have a1 : (y + 1 + 3) / 4 = (y + 3) / 4 := by omega
    have a2 : (y + 1 + 99) / 100 = (y + 99) / 100 := by omega
    have a3 : (y + 1 + 399) / 400 = (y + 399) / 400 := by omega
    rw [if_neg hl]
    unfold daysSinceEpoch
    rw [a1, a2, a3]
    omega

theorem daysSinceEpoch_mono (y y1 : Nat) (h : y ≤ y1) :
    daysSinceEpoch y ≤ daysSinceEpoch y1 := by
  induction y1, h using Nat.le_induction with
  | base => exact Nat.le_refl _
  | succ n _ ih =>
    rw [daysSinceEpoch_succ]
    omega

theorem yearDay_lt_nextMonth (y m d : Nat) (hv : ValidDate y m d) :
    daysBefore (m - 1) + (if isLeap y && decide (3 ≤ m) then 1 else 0) + (d - 1)
      < daysBefore m + (if isLeap y && decide (2 ≤ m) then 1 else 0) := by
  obtain ⟨_, hm1, hm2, hd1, hd2⟩ := hv
  unfold daysIn at hd2
  cases hl : isLeap y <;> rw [hl] at hd2 <;> interval_cases m <;>
    simp [daysBefore] at hd2 ⊢ <;> omega

theorem monthStart_mono (b : Bool) (m m1 : Nat) (hm : 1 ≤ m) (h : m < m1) (hm1 : m1 ≤ 12) :
    daysBefore m + (if b && decide (2 ≤ m) then 1 else 0)
      ≤ daysBefore (m1 - 1) + (if b && decide (3 ≤ m1) then 1 else 0) := by
  cases b <;> interval_cases m1 <;> interval_cases m <;> simp [daysBefore]

theorem monthEnd_le (b : Bool) (m : Nat) (hm : 1 ≤ m) (hm1 : m ≤ 12) :
    daysBefore m + (if b && decide (2 ≤ m) then 1 else 0) ≤ 365 + (if b then 1 else 0) := by
  cases b <;> interval_cases m <;> simp [daysBefore]

theorem midnight_eq (y m d : Nat) :
    midnight y m d
      = (daysSinceEpoch y + daysBefore (m - 1)
          + (if isLeap y && decide (3 ≤ m) then 1 else 0) + (d - 1)) * 86400000000000 := by
  unfold midnight Date secondsPerDay nanosPerSecond
  simp only [Nat.zero_mul, Nat.add_zero]
  rw [Nat.mul_assoc]

/-- The instants of the model follow the calendar: an earlier valid date has an
earlier midnight. -/
theorem midnight_lt_of_DateLt (y m d y1 m1 d1 : Nat) (hv : ValidDate y m d)
    (hv1 : ValidDate y1 m1 d1) (h : DateLt y m d y1 m1 d1) :
    midnight y m d < midnight y1 m1 d1 := by
  rw [midnight_eq, midnight_eq]
  apply Nat.mul_lt_mul_of_pos_right _ (by decide)
  have hA := yearDay_lt_nextMonth y m d hv
  obtain ⟨_, hm1, hm2, hd1, _⟩ := hv
  obtain ⟨_, hn1, hn2, he1, _⟩ := hv1
  rcases h with h | ⟨rfl, h | ⟨rfl, h⟩⟩
  · have hB := monthEnd_le (isLeap y) m hm1 hm2
    have hC := daysSinceEpoch_succ y
    have hD := daysSinceEpoch_mono (y + 1) y1 h
    omega
  · have hB := monthStart_mono (isLeap y) m m1 hm1 h hn2
    omega
  · omega

theorem layoutISO_eq :
    layoutISO = .stdLongYear :: .lit (Char.ofNat 45) :: .stdZeroMonth :: .lit (Char.ofNat 45)
      :: .stdZeroDay :: [] := rfl

theorem timeParse_isoToken (y m d : Nat) (hv : ValidDate y m d) :
    timeParse layoutISO (isoToken y m d) = some (midnight y m d) := by
  obtain ⟨hy, hm1, hm2, hd1, hd2⟩ := hv
  have hd31 := daysIn_le m y
  have gd : parseChunk .stdZeroDay
      ({ ({ (⟨0, 1, 1, 0, 0, 0, 0⟩ : Fields) with year := y } : Fields) with month := m })
      (pad2 d) = some (⟨y, m, d, 0, 0, 0, 0⟩, []) := by
    have g := parseChunk_day_fwd
      ({ ({ (⟨0, 1, 1, 0, 0, 0, 0⟩ : Fields) with year := y } : Fields) with month := m })
      d (by omega) []
    rw [List.append_nil] at g
    exact g
  unfold timeParse isoToken
  rw [layoutISO_eq, parseChunks_cons_some _ _ _ _ _ _ (parseChunk_year _ y hy _),
    parseChunks_cons_some _ _ _ _ _ _ (parseChunk_lit_fwd _ _ _),
    parseChunks_cons_some _ _ _ _ _ _ (parseChunk_month_fwd _ m hm1 hm2 _),
    parseChunks_cons_some _ _ _ _ _ _ (parseChunk_lit_fwd _ _ _),
    parseChunks_cons_some _ _ _ _ _ _ gd]
  have hday : ¬ ((decide (d < 1) || decide (d > daysIn m y)) = true) := by
    simp only [Bool.or_eq_true, decide_eq_true_eq, not_or, not_lt, gt_iff_lt]
    omega
  simp only [parseChunks, List.isEmpty_nil, if_true, if_neg hday]
  rfl

theorem timeParse_layoutISO_inv (s : Str) (t : Time) (h : timeParse layoutISO s = some t) :
    ∃ y m d, ValidDate y m d ∧ s = isoToken y m d ∧ t = midnight y m d := by
  unfold timeParse at h
  cases hp : parseChunks layoutISO ⟨0, 1, 1, 0, 0, 0, 0⟩ s with
  | none => rw [hp] at h; simp at h
  | some g =>
    rw [hp] at h
    rw [layoutISO_eq] at hp
    obtain ⟨f1, v1, h1, hp⟩ := parseChunks_cons_inv _ _ _ _ _ hp
    obtain ⟨f2, v2, h2, hp⟩ := parseChunks_cons_inv _ _ _ _ _ hp
    obtain ⟨f3, v3, h3, hp⟩ := parseChunks_cons_inv _ _ _ _ _ hp
    obtain ⟨f4, v4, h4, hp⟩ := parseChunks_cons_inv _ _ _ _ _ hp
    obtain ⟨f5, v5, h5, hp⟩ := parseChunks_cons_inv _ _ _ _ _ hp
    obtain ⟨ev5, eg⟩ := parseChunks_nil_inv _ _ _ hp
    obtain ⟨y, hy, e1, ef1⟩ := parseChunk_year_inv _ _ _ _ h1
    obtain ⟨e2, ef2⟩ := parseChunk_lit_inv _ _ _ _ _ h2
    obtain ⟨m, hm1, hm2, e3, ef3⟩ := parseChunk_month_inv _ _ _ _ h3
    obtain ⟨e4, ef4⟩ := parseChunk_lit_inv _ _ _ _ _ h4
    obtain ⟨d, hd, e5, ef5⟩ := parseChunk_day_inv _ _ _ _ h5
    rw [eg, ef5, ef4, ef3, ef2, ef1] at h
    simp only at h
    by_cases hday : (decide (d < 1) || decide (d > daysIn m y)) = true
    · rw [if_pos hday] at h
      simp at h
    · rw [if_neg hday] at h
      simp only [Bool.or_eq_true, decide_eq_true_eq, not_or, not_lt, gt_iff_lt] at hday
      refine ⟨y, m, d, ⟨hy, hm1, hm2, hday.1, hday.2⟩, ?_, (Option.some.inj h).symm⟩
      rw [e1, e2, e3, e4, e5, ev5]
      simp [isoToken]

end CalendarEvents
